import Mathlib

/-!
A verification development for the `asyncio_disruptor` repository
(`disruptor/disruptor.py`): a multi-producer / multi-consumer broadcast
ring buffer ("disruptor-lite").

The pure components (`RingBuffer`, `RingBufferLagStats`) are embedded as
Lean functions, translated directly from the Python source.

The concurrent core (`Disruptor.produce`, `ConsumerThread.run`,
`Disruptor.close`, `register_consumer`) is embedded as a labelled
transition system.  Per the documented concurrency model, the system is
single-threaded cooperative (asyncio): execution only yields at
suspension points (acquiring the synchronizer lock, awaiting a condition
variable, and the external `consume` callback), so the code between two
suspension points executes atomically.  Each `Step` constructor is the
code of one such atomic section; states are the lock-free points between
them.  Condition-variable waits are modelled as suspensions that may
resume at any time (a notification, a timeout, or a spurious wakeup --
all waiters re-check their predicate, so this over-approximates every
real schedule).

Ghost fields (`produced_log`, `observed`, `start_seqnum`, `stop_seqnum`,
`closed_calls`, `error_handler_log`) record histories for the theorems
to talk about; they never influence the dynamics.
-/

namespace AsyncioDisruptor

/-- Python slice `l[a : a + n]` for non-negative arguments (clamping
semantics agree with `drop`/`take`). -/
def pySlice {ε : Type} (l : List ε) (a n : ℕ) : List ε := (l.drop a).take n

/-- Python's equal-length slice assignment `l[i : i + len(xs)] = xs`
(replacement in place; `RingBuffer.mset` only ever assigns slices whose
target range has exactly the length of the assigned value). -/
def spliceAt {ε : Type} (l : List ε) (i : ℕ) (xs : List ε) : List ε :=
  l.take i ++ xs ++ l.drop (i + xs.length)

/-! ## RingBuffer (`class RingBuffer`) -/

/-- `RingBuffer.__init__`: a preallocated, list-backed buffer with a
static size.  The payload type `ε` stands for whatever the slots hold
(in Python, initially `None`, then produced elements; instantiating
`ε := Option α` with sentinel `none` gives the Python configuration). -/
structure RingBuffer (ε : Type) where
  buffer : List ε
  size : ℕ
deriving DecidableEq

/-- `RingBuffer(size)` with `self.buffer = [None] * size`, the initial
slot content generalised to an arbitrary sentinel value. -/
def RingBuffer.create {ε : Type} (size : ℕ) (sentinel : ε) : RingBuffer ε :=
  ⟨List.replicate size sentinel, size⟩

/-- `RingBuffer.set`: `self.buffer[index % self.size] = element`. -/
def RingBuffer.setAt {ε : Type} (rb : RingBuffer ε) (index : ℕ) (element : ε) : RingBuffer ε :=
  { rb with buffer := rb.buffer.set (index % rb.size) element }

/-- `RingBuffer.get`: `return self.buffer[index % self.size]` (as an
optional lookup; in-range for every index when `size > 0`). -/
def RingBuffer.getAt {ε : Type} (rb : RingBuffer ε) (index : ℕ) : Option ε :=
  rb.buffer[index % rb.size]?

/-- `RingBuffer.mget`:
`s_index = start_index % self.size`;
if `s_index + count > self.size` return
`self.buffer[s_index:] + self.buffer[0:(s_index + count) - self.size]`
else return `self.buffer[s_index:s_index+count]`. -/
def RingBuffer.mget {ε : Type} (rb : RingBuffer ε) (start_index count : ℕ) : List ε :=
  if rb.size < start_index % rb.size + count then
    rb.buffer.drop (start_index % rb.size) ++
      rb.buffer.take (start_index % rb.size + count - rb.size)
  else
    (rb.buffer.drop (start_index % rb.size)).take count

/-- `RingBuffer.mset`:
`s_index = start_index % self.size`;
if `s_index + len(elements) > self.size` then
`self.buffer[s_index:self.size] = elements[0:self.size - s_index]` and
`self.buffer[0:len(elements) - (self.size - s_index)] = elements[self.size - s_index:len(elements)]`
else `self.buffer[s_index:s_index+len(elements)] = elements[0:len(elements)]`. -/
def RingBuffer.mset {ε : Type} (rb : RingBuffer ε) (start_index : ℕ) (elements : List ε) :
    RingBuffer ε :=
  if rb.size < start_index % rb.size + elements.length then
    { rb with
        buffer :=
          spliceAt
            (spliceAt rb.buffer (start_index % rb.size)
              (elements.take (rb.size - start_index % rb.size)))
            0
            (elements.drop (rb.size - start_index % rb.size)) }
  else
    { rb with buffer := spliceAt rb.buffer (start_index % rb.size) elements }

/-! ## Lag statistics (`class RingBufferLagStats`)

Python's `/` on these counters is float division; the claim under test
stipulates exact rational arithmetic, so the running average is embedded
over `ℚ`. -/

structure RingBufferLagStats where
  cur_lag : ℚ
  max_lag : ℚ
  avg_lag : ℚ
  n_samples : ℕ
deriving DecidableEq

/-- `RingBufferLagStats.__init__`. -/
def RingBufferLagStats.create : RingBufferLagStats := ⟨0, 0, 0, 0⟩

/-- `RingBufferLagStats.sample`: set `cur_lag`, bump `max_lag` if
exceeded, update `avg_lag := (avg_lag * n_samples + lag) / (n_samples + 1)`,
then `n_samples := n_samples + 1`. -/
def RingBufferLagStats.sample (st : RingBufferLagStats) (lag : ℚ) : RingBufferLagStats :=
  { cur_lag := lag
    max_lag := if st.max_lag < lag then lag else st.max_lag
    avg_lag := (st.avg_lag * st.n_samples + lag) / (st.n_samples + 1)
    n_samples := st.n_samples + 1 }

/-! ## The concurrent core as a transition system -/

/-- Program counter of one `ConsumerThread.run` coroutine, one value per
suspension point of the source:
* `outer_top`   -- about to test `while self.disruptor.running`
* `inner_check` -- about to test `while available_count == 0 and self.disruptor.running`
* `inner_lock`  -- inner test passed, waiting to acquire the lock
* `wait_prod`   -- suspended in `await_production()`
* `consuming`   -- inner loop exited, about to run `_consume_safe(to_consume)`
* `update_lock` -- consume finished, waiting for the lock to commit `seqnum`
* `drain_start` -- outer loop exited (`running` is false), pre-drain
* `drain_consume` -- drain snapshot taken, about to `_consume_safe`
* `close_hook`  -- about to call `self.consumer.close()`
* `done`        -- coroutine finished. -/
inductive WPC
  | outer_top | inner_check | inner_lock | wait_prod | consuming
  | update_lock | drain_start | drain_consume | close_hook | done
deriving DecidableEq

/-- One `ConsumerThread` with its local variables, plus ghost history:
`start_seqnum` (the producer cursor at registration), `observed` (the
batches passed to `consumer.consume`, in call order), `consumed` (the
`ConsumerStats.consumed` counter) and `closed_calls` (number of
`consumer.close()` invocations). -/
structure Worker (ε : Type) where
  seqnum : ℕ
  start_seqnum : ℕ
  available_count : ℕ
  to_consume : Option (List ε)
  pc : WPC
  observed : List (List ε)
  consumed : ℕ
  closed_calls : ℕ
deriving DecidableEq

/-- `ConsumerThread.__init__`: `self.seqnum = disruptor.producer_seqnum`,
locals start as `available_count = 0`, `to_consume = None`. -/
def Worker.create {ε : Type} (p : ℕ) : Worker ε :=
  ⟨p, p, 0, none, .outer_top, [], 0, 0⟩

/-- Program counter of one `Disruptor.produce` call:
* `loop_check`  -- about to test `while produced < len(elements)`
  (the entry `running` check and the lag checkpoint already passed)
* `wait_cons`   -- suspended in `await_consumption()`
* `done`        -- returned normally
* `stopped_err` -- raised `Exception('Disruptor is stopped')` at entry
* `value_err`   -- raised `ValueError` from `min()` of an empty sequence. -/
inductive PPC
  | loop_check | wait_cons | done | stopped_err | value_err
deriving DecidableEq

/-- One in-flight (or finished) `produce(elements)` call. -/
structure Producer (ε : Type) where
  elements : List ε
  produced : ℕ
  pc : PPC
deriving DecidableEq

/-- Program counter of one `Disruptor.close` call: the lock section that
flips `running`, then awaiting the consumer tasks, then returned. -/
inductive CPC
  | entry | awaiting | done
deriving DecidableEq

/-- The global state of one `Disruptor` together with its tasks.
`producer_seqnum`, `running`, `consumers` and the ring are the object's
fields; `stats_produced` is `stats.produced`; `end_time_set` records
whether `stats.close()` has run; `producers`/`closers` are the in-flight
`produce`/`close` calls; the rest is ghost history. -/
structure DState (ε : Type) where
  ring_buffer : RingBuffer ε
  producer_seqnum : ℕ
  running : Bool
  consumers : List (Worker ε)
  producers : List (Producer ε)
  closers : List CPC
  stats_produced : ℕ
  end_time_set : Bool
  error_handler_set : Bool
  error_handler_log : List (ℕ × List ε)
  produced_log : List ε
  stop_seqnum : Option ℕ
deriving DecidableEq

/-- `Disruptor.__init__(size, ...)`: empty ring of `size` slots, cursor 0,
running, no consumers.  `error_handler_set` records whether a
`consumer_error_handler` was supplied. -/
def Disruptor.create {ε : Type} (size : ℕ) (sentinel : ε) (error_handler_set : Bool) :
    DState ε :=
  { ring_buffer := RingBuffer.create size sentinel
    producer_seqnum := 0
    running := true
    consumers := []
    producers := []
    closers := []
    stats_produced := 0
    end_time_set := false
    error_handler_set := error_handler_set
    error_handler_log := []
    produced_log := []
    stop_seqnum := none }

/-- `min(map(lambda c: c.seqnum, self.consumers))` -- `none` when the
consumer roster is empty (Python raises `ValueError` there). -/
def minConsumerSeq {ε : Type} (s : DState ε) : Option ℕ :=
  (s.consumers.map Worker.seqnum).min?

/-- `to_produce_cnt = min(can_produce, len(elements) - produced)` where
`can_produce = self.ring_buffer.size - self.producer_seqnum + min(Ci)`
(meaningful when `can_produce > 0`, i.e. `producer_seqnum < size + m`). -/
def toProduceCnt {ε : Type} (s : DState ε) (m : ℕ) (p : Producer ε) : ℕ :=
  min (s.ring_buffer.size + m - s.producer_seqnum) (p.elements.length - p.produced)

/-- `elements[produced : produced + to_produce_cnt]`. -/
def roundSlice {ε : Type} (s : DState ε) (m : ℕ) (p : Producer ε) : List ε :=
  pySlice p.elements p.produced (toProduceCnt s m p)

/-- Transition labels: which task moves, and for a `consume` callback
whether the external consumer raised (`fail`). -/
inductive Label (ε : Type)
  | produce_call (elements : List ε)
  | produce_round_write (j : ℕ)
  | produce_round_wait (j : ℕ)
  | produce_round_empty_min (j : ℕ)
  | produce_finish (j : ℕ)
  | produce_wake (j : ℕ)
  | register_consumer
  | w_outer (i : ℕ)
  | w_inner_check (i : ℕ)
  | w_inner_lock (i : ℕ)
  | w_wake (i : ℕ)
  | w_consume (i : ℕ) (fail : Bool)
  | w_update (i : ℕ)
  | w_drain_lock (i : ℕ)
  | w_drain_consume (i : ℕ) (fail : Bool)
  | w_close_hook (i : ℕ)
  | close_call
  | close_lock (k : ℕ)
  | close_finish (k : ℕ)
deriving DecidableEq

/-- The small-step semantics.  Each constructor is one atomic section of
the source (code between two suspension points); see the constructor
comments for the lines it embeds. -/
inductive Step (ε : Type) : DState ε → Label ε → DState ε → Prop
  /-- `Disruptor.produce` entry: `if not self.running: raise
  Exception('Disruptor is stopped')`, executed synchronously at the call;
  a successful check leaves the call suspended at the lag checkpoint
  before its first loop test. -/
  | produce_call (s : DState ε) (elements : List ε) :
      Step ε s (.produce_call elements)
        { s with producers := s.producers ++
            [⟨elements, 0, if s.running then .loop_check else .stopped_err⟩] }
  /-- One iteration of `while produced < len(elements)` whose lock section
  evaluates `min()` on an empty consumer roster: `ValueError`, the call
  aborts, nothing else changes. -/
  | produce_round_empty_min (s : DState ε) (j : ℕ) (p : Producer ε)
      (hp : s.producers[j]? = some p) (hpc : p.pc = .loop_check)
      (hlt : p.produced < p.elements.length)
      (hcons : s.consumers = []) :
      Step ε s (.produce_round_empty_min j)
        { s with producers := s.producers.set j { p with pc := .value_err } }
  /-- One iteration whose lock section finds `can_produce <= 0`
  (`size + min(Ci) ≤ producer_seqnum`): the call suspends in
  `await_consumption()`. -/
  | produce_round_wait (s : DState ε) (j : ℕ) (p : Producer ε) (m : ℕ)
      (hp : s.producers[j]? = some p) (hpc : p.pc = .loop_check)
      (hlt : p.produced < p.elements.length)
      (hmin : minConsumerSeq s = some m)
      (hfull : s.ring_buffer.size + m ≤ s.producer_seqnum) :
      Step ε s (.produce_round_wait j)
        { s with producers := s.producers.set j { p with pc := .wait_cons } }
  /-- One iteration whose lock section finds `can_produce > 0`: it
  `mset`s the next `to_produce_cnt` elements at `producer_seqnum`,
  advances `produced` and `producer_seqnum`, and notifies production.
  The written slice is also appended to the ghost `produced_log`. -/
  | produce_round_write (s : DState ε) (j : ℕ) (p : Producer ε) (m : ℕ)
      (hp : s.producers[j]? = some p) (hpc : p.pc = .loop_check)
      (hlt : p.produced < p.elements.length)
      (hmin : minConsumerSeq s = some m)
      (hfree : s.producer_seqnum < s.ring_buffer.size + m) :
      Step ε s (.produce_round_write j)
        { s with
            ring_buffer := s.ring_buffer.mset s.producer_seqnum (roundSlice s m p)
            producer_seqnum := s.producer_seqnum + toProduceCnt s m p
            produced_log := s.produced_log ++ roundSlice s m p
            producers := s.producers.set j
              { p with produced := p.produced + toProduceCnt s m p } }
  /-- Loop exit (`produced >= len(elements)`) followed by
  `self.stats.report_p_produced(produced)`; the call returns. -/
  | produce_finish (s : DState ε) (j : ℕ) (p : Producer ε)
      (hp : s.producers[j]? = some p) (hpc : p.pc = .loop_check)
      (hge : p.elements.length ≤ p.produced) :
      Step ε s (.produce_finish j)
        { s with stats_produced := s.stats_produced + p.produced
                 producers := s.producers.set j { p with pc := .done } }
  /-- Wakeup from `await_consumption()` (notification, timeout or
  spurious); the loop test is re-entered. -/
  | produce_wake (s : DState ε) (j : ℕ) (p : Producer ε)
      (hp : s.producers[j]? = some p) (hpc : p.pc = .wait_cons) :
      Step ε s (.produce_wake j)
        { s with producers := s.producers.set j { p with pc := .loop_check } }
  /-- Modelled from the spec: `register_consumer` is not present in the
  (truncated) source file.  Per the spec it requires a running disruptor
  and, under the lock, appends a `ConsumerThread` (whose constructor is
  in the source: `self.seqnum = disruptor.producer_seqnum`) and spawns
  its task. -/
  | register_consumer (s : DState ε) (hrun : s.running = true) :
      Step ε s .register_consumer
        { s with consumers := s.consumers ++ [Worker.create s.producer_seqnum] }
  /-- The outer `while self.disruptor.running` test (followed by the lag
  checkpoint suspension when it passes). -/
  | w_outer (s : DState ε) (i : ℕ) (w : Worker ε)
      (hw : s.consumers[i]? = some w) (hpc : w.pc = .outer_top) :
      Step ε s (.w_outer i)
        { s with consumers := s.consumers.set i (
            { w with pc := if s.running then .inner_check else .drain_start }) }
  /-- The inner `while available_count == 0 and self.disruptor.running`
  test: passing it heads for the lock, failing it exits to
  `_consume_safe`. -/
  | w_inner_check (s : DState ε) (i : ℕ) (w : Worker ε)
      (hw : s.consumers[i]? = some w) (hpc : w.pc = .inner_check) :
      Step ε s (.w_inner_check i)
        { s with consumers := s.consumers.set i (
            { w with pc := if w.available_count = 0 ∧ s.running = true
                then .inner_lock else .consuming }) }
  /-- The inner lock section: `available_count = producer_seqnum - seqnum`;
  if positive, snapshot `to_consume = ring_buffer.mget(seqnum,
  available_count)`; otherwise suspend in `await_production()`. -/
  | w_inner_lock (s : DState ε) (i : ℕ) (w : Worker ε)
      (hw : s.consumers[i]? = some w) (hpc : w.pc = .inner_lock) :
      Step ε s (.w_inner_lock i)
        { s with consumers := s.consumers.set i (
            if 0 < s.producer_seqnum - w.seqnum then
              { w with available_count := s.producer_seqnum - w.seqnum
                       to_consume := some (s.ring_buffer.mget w.seqnum
                         (s.producer_seqnum - w.seqnum))
                       pc := .inner_check }
             else { w with pc := .wait_prod }) }
  /-- Wakeup from `await_production()`; the inner test is re-entered. -/
  | w_wake (s : DState ε) (i : ℕ) (w : Worker ε)
      (hw : s.consumers[i]? = some w) (hpc : w.pc = .wait_prod) :
      Step ε s (.w_wake i)
        { s with consumers := s.consumers.set i ({ w with pc := .inner_check }) }
  /-- `_consume_safe(to_consume)` on a non-empty snapshot:
  `consumer.consume` is invoked (recorded in `observed`); if it raises
  (`fail = true`) the error is forwarded to the error handler when one
  is set and swallowed otherwise; either way
  `stats.report_c_consumed(self, len(elements), ...)` runs. -/
  | w_consume_batch (s : DState ε) (i : ℕ) (w : Worker ε) (l : List ε) (fail : Bool)
      (hw : s.consumers[i]? = some w) (hpc : w.pc = .consuming)
      (hto : w.to_consume = some l) (hne : l ≠ []) :
      Step ε s (.w_consume i fail)
        { s with
            consumers := s.consumers.set i (
              { w with observed := w.observed ++ [l]
                       consumed := w.consumed + l.length
                       pc := .update_lock })
            error_handler_log := if fail && s.error_handler_set
              then s.error_handler_log ++ [(i, l)] else s.error_handler_log }
  /-- `_consume_safe` on `None` or an empty snapshot: no call, no stats. -/
  | w_consume_skip (s : DState ε) (i : ℕ) (w : Worker ε) (fail : Bool)
      (hw : s.consumers[i]? = some w) (hpc : w.pc = .consuming)
      (hto : w.to_consume = none ∨ w.to_consume = some []) :
      Step ε s (.w_consume i fail)
        { s with consumers := s.consumers.set i ({ w with pc := .update_lock }) }
  /-- The post-consumption lock section: `seqnum += available_count`,
  `notify_consumption()`, reset `available_count`/`to_consume`. -/
  | w_update (s : DState ε) (i : ℕ) (w : Worker ε)
      (hw : s.consumers[i]? = some w) (hpc : w.pc = .update_lock) :
      Step ε s (.w_update i)
        { s with consumers := s.consumers.set i (
            { w with seqnum := w.seqnum + w.available_count
                     available_count := 0
                     to_consume := none
                     pc := .outer_top }) }
  /-- The drain lock section (after the disruptor stopped):
  `to_consume = None`; `available_count = producer_seqnum - seqnum`;
  snapshot the rest if any. -/
  | w_drain_lock (s : DState ε) (i : ℕ) (w : Worker ε)
      (hw : s.consumers[i]? = some w) (hpc : w.pc = .drain_start) :
      Step ε s (.w_drain_lock i)
        { s with consumers := s.consumers.set i (
            { w with available_count := s.producer_seqnum - w.seqnum
                     to_consume := if 0 < s.producer_seqnum - w.seqnum
                       then some (s.ring_buffer.mget w.seqnum
                         (s.producer_seqnum - w.seqnum))
                       else none
                     pc := .drain_consume }) }
  /-- The drain's `_consume_safe` on a non-empty snapshot (same error
  policy as in the main loop). -/
  | w_drain_consume_batch (s : DState ε) (i : ℕ) (w : Worker ε) (l : List ε) (fail : Bool)
      (hw : s.consumers[i]? = some w) (hpc : w.pc = .drain_consume)
      (hto : w.to_consume = some l) (hne : l ≠ []) :
      Step ε s (.w_drain_consume i fail)
        { s with
            consumers := s.consumers.set i (
              { w with observed := w.observed ++ [l]
                       consumed := w.consumed + l.length
                       pc := .close_hook })
            error_handler_log := if fail && s.error_handler_set
              then s.error_handler_log ++ [(i, l)] else s.error_handler_log }
  /-- The drain's `_consume_safe` on `None` or an empty snapshot. -/
  | w_drain_consume_skip (s : DState ε) (i : ℕ) (w : Worker ε) (fail : Bool)
      (hw : s.consumers[i]? = some w) (hpc : w.pc = .drain_consume)
      (hto : w.to_consume = none ∨ w.to_consume = some []) :
      Step ε s (.w_drain_consume i fail)
        { s with consumers := s.consumers.set i ({ w with pc := .close_hook }) }
  /-- `self.consumer.close()`; the worker coroutine terminates. -/
  | w_close_hook (s : DState ε) (i : ℕ) (w : Worker ε)
      (hw : s.consumers[i]? = some w) (hpc : w.pc = .close_hook) :
      Step ε s (.w_close_hook i)
        { s with consumers := s.consumers.set i (
            { w with closed_calls := w.closed_calls + 1, pc := .done }) }
  /-- A `Disruptor.close()` call arrives (suspends on the lock). -/
  | close_call (s : DState ε) :
      Step ε s .close_call { s with closers := s.closers ++ [.entry] }
  /-- `close`'s lock section when still running: `self.running = False`
  and `notify_production()`.  The ghost `stop_seqnum` records the
  producer cursor at the stop. -/
  | close_lock_stop (s : DState ε) (k : ℕ)
      (hk : s.closers[k]? = some .entry) (hrun : s.running = true) :
      Step ε s (.close_lock k)
        { s with running := false
                 stop_seqnum := some s.producer_seqnum
                 closers := s.closers.set k .awaiting }
  /-- `close`'s lock section when already stopped: nothing to do. -/
  | close_lock_skip (s : DState ε) (k : ℕ)
      (hk : s.closers[k]? = some .entry) (hrun : s.running = false) :
      Step ε s (.close_lock k)
        { s with closers := s.closers.set k .awaiting }
  /-- Modelled from the spec: the tail of `Disruptor.close` is cut off in
  the source file (it ends mid-statement at `for consumer`).  Per the
  spec, `close` then awaits every consumer task's termination and
  records `end_time` on the stats; this step fires once every worker
  coroutine is `done`. -/
  | close_finish (s : DState ε) (k : ℕ)
      (hk : s.closers[k]? = some .awaiting)
      (hall : ∀ w ∈ s.consumers, w.pc = .done) :
      Step ε s (.close_finish k)
        { s with end_time_set := true, closers := s.closers.set k .done }

/-- States reachable from a freshly constructed disruptor by any
interleaving of produce calls, consumer workers, registrations and
close calls. -/
inductive Reachable (ε : Type) (size : ℕ) (sentinel : ε) (ehs : Bool) : DState ε → Prop
  | init : Reachable ε size sentinel ehs (Disruptor.create size sentinel ehs)
  | step {s s' : DState ε} {l : Label ε} :
      Reachable ε size sentinel ehs s → Step ε s l s' → Reachable ε size sentinel ehs s'

/-- The flattened stream a consumer has observed: the concatenation of
the batches passed to its `consume` calls, in call order. -/
def Worker.obs {ε : Type} (w : Worker ε) : List ε := w.observed.flatten

/-- The contiguous slice `log[a:b]` of the publication history. -/
def logSlice {ε : Type} (log : List ε) (a b : ℕ) : List ε := (log.drop a).take (b - a)

/-! ## The inductive invariant (definitions) -/

/-- Worker-local clauses for the phases in which the worker holds no
fetched batch: its observed stream is exactly the publications from its
registration point up to its committed cursor. -/
def idleInv {ε : Type} (log : List ε) (w : Worker ε) : Prop :=
  w.available_count = 0 ∧ w.to_consume = none ∧
    w.obs = logSlice log w.start_seqnum w.seqnum

/-- Worker-local clauses for the phases in which the worker holds a
fetched, not yet consumed batch: the snapshot is exactly the
publications `[seqnum, seqnum + available_count)`. -/
def fetchedInv {ε : Type} (P : ℕ) (log : List ε) (w : Worker ε) : Prop :=
  0 < w.available_count ∧ w.seqnum + w.available_count ≤ P ∧
    w.to_consume = some (logSlice log w.seqnum (w.seqnum + w.available_count)) ∧
    w.obs = logSlice log w.start_seqnum w.seqnum

/-- The per-worker inductive invariant, relative to the producer cursor
`P`, the ghost publication history `log` and the ghost stop marker. -/
def WorkerCore {ε : Type} (P : ℕ) (log : List ε) (stop : Option ℕ) (w : Worker ε) : Prop :=
  w.seqnum ≤ P ∧ w.start_seqnum ≤ w.seqnum ∧
  w.consumed = (w.observed.map List.length).sum ∧
  w.closed_calls = (if w.pc = WPC.done then 1 else 0) ∧
  (match w.pc with
   | .outer_top | .inner_lock | .wait_prod | .drain_start => idleInv log w
   | .inner_check | .consuming => idleInv log w ∨ fetchedInv P log w
   | .update_lock =>
       w.seqnum + w.available_count ≤ P ∧
       w.obs = logSlice log w.start_seqnum (w.seqnum + w.available_count)
   | .drain_consume =>
       w.seqnum + w.available_count ≤ P ∧
       w.to_consume = (if 0 < w.available_count
         then some (logSlice log w.seqnum (w.seqnum + w.available_count)) else none) ∧
       w.obs = logSlice log w.start_seqnum w.seqnum ∧
       (∀ q, stop = some q → q ≤ w.seqnum + w.available_count)
   | .close_hook | .done =>
       w.seqnum + w.available_count ≤ P ∧
       w.obs = logSlice log w.start_seqnum (w.seqnum + w.available_count) ∧
       (∀ q, stop = some q → q ≤ w.seqnum + w.available_count))

/-- The global inductive invariant of the transition system. -/
structure Inv {ε : Type} (s : DState ε) : Prop where
  ring_len : s.ring_buffer.buffer.length = s.ring_buffer.size
  log_len : s.produced_log.length = s.producer_seqnum
  ring_content : ∀ i, i < s.producer_seqnum →
    s.producer_seqnum ≤ i + s.ring_buffer.size →
    s.ring_buffer.buffer[i % s.ring_buffer.size]? = s.produced_log[i]?
  stop_run : s.stop_seqnum = none ↔ s.running = true
  stop_le : ∀ q, s.stop_seqnum = some q → q ≤ s.producer_seqnum
  close_run : ∀ c ∈ s.closers, c ≠ CPC.entry → s.running = false
  close_done : CPC.done ∈ s.closers →
    (∀ w ∈ s.consumers, w.pc = WPC.done) ∧ s.end_time_set = true
  run_drain : s.running = true → ∀ w ∈ s.consumers,
    w.pc ≠ WPC.drain_start ∧ w.pc ≠ WPC.drain_consume ∧
    w.pc ≠ WPC.close_hook ∧ w.pc ≠ WPC.done
  producer_bound : ∀ w ∈ s.consumers,
    s.producer_seqnum ≤ s.ring_buffer.size + w.seqnum
  producer_inv : ∀ p ∈ s.producers, p.produced ≤ p.elements.length ∧
    (p.pc = PPC.done → p.produced = p.elements.length) ∧
    (p.pc = PPC.stopped_err → p.produced = 0)
  worker_inv : ∀ w ∈ s.consumers,
    WorkerCore s.producer_seqnum s.produced_log s.stop_seqnum w
  handler_empty : s.error_handler_set = false → s.error_handler_log = []

/-! ## A concrete execution (used by the witnesses)

Capacity 2, one registered consumer, one `produce([5,6,7])` call (which
needs two rounds), a failing `consume` on the first batch, then `close`
and the drain. -/

def tr0 : DState ℕ := Disruptor.create 2 0 true

def tr1 : DState ℕ := { tr0 with consumers := [Worker.create 0] }

def tr2 : DState ℕ := { tr1 with producers := [⟨[5, 6, 7], 0, .loop_check⟩] }

def tr3 : DState ℕ :=
  { tr2 with
      ring_buffer := ⟨[5, 6], 2⟩
      producer_seqnum := 2
      produced_log := [5, 6]
      producers := [⟨[5, 6, 7], 2, .loop_check⟩] }

def tr4 : DState ℕ := { tr3 with consumers := [⟨0, 0, 0, none, .inner_check, [], 0, 0⟩] }

def tr5 : DState ℕ := { tr4 with consumers := [⟨0, 0, 0, none, .inner_lock, [], 0, 0⟩] }

def tr6 : DState ℕ :=
  { tr5 with consumers := [⟨0, 0, 2, some [5, 6], .inner_check, [], 0, 0⟩] }

def tr7 : DState ℕ :=
  { tr6 with consumers := [⟨0, 0, 2, some [5, 6], .consuming, [], 0, 0⟩] }

def tr8 : DState ℕ :=
  { tr7 with
      consumers := [⟨0, 0, 2, some [5, 6], .update_lock, [[5, 6]], 2, 0⟩]
      error_handler_log := [(0, [5, 6])] }

def tr9 : DState ℕ :=
  { tr8 with consumers := [⟨2, 0, 0, none, .outer_top, [[5, 6]], 2, 0⟩] }

def tr10 : DState ℕ :=
  { tr9 with
      ring_buffer := ⟨[7, 6], 2⟩
      producer_seqnum := 3
      produced_log := [5, 6, 7]
      producers := [⟨[5, 6, 7], 3, .loop_check⟩] }

def tr11 : DState ℕ :=
  { tr10 with producers := [⟨[5, 6, 7], 3, .done⟩], stats_produced := 3 }

def tr12 : DState ℕ := { tr11 with closers := [.entry] }

def tr13 : DState ℕ :=
  { tr12 with running := false, stop_seqnum := some 3, closers := [.awaiting] }

def tr14 : DState ℕ :=
  { tr13 with consumers := [⟨2, 0, 0, none, .drain_start, [[5, 6]], 2, 0⟩] }

def tr15 : DState ℕ :=
  { tr14 with consumers := [⟨2, 0, 1, some [7], .drain_consume, [[5, 6]], 2, 0⟩] }

def tr16 : DState ℕ :=
  { tr15 with consumers := [⟨2, 0, 1, some [7], .close_hook, [[5, 6], [7]], 3, 0⟩] }

def tr17 : DState ℕ :=
  { tr16 with consumers := [⟨2, 0, 1, some [7], .done, [[5, 6], [7]], 3, 1⟩] }

def tr18 : DState ℕ := { tr17 with end_time_set := true, closers := [.done] }

/-- The state after `produce([9])` is called on the stopped `tr13`. -/
def tr13f : DState ℕ :=
  { tr13 with producers := tr13.producers ++ [⟨[9], 0, PPC.stopped_err⟩] }

/-! ## A produce call on a disruptor with no consumers (used by C6) -/

def cx0 : DState ℕ := Disruptor.create 4 0 false

/-- `produce([7])` invoked on a running capacity-4 disruptor with no
consumers registered; the call passed its entry check and sits before
its first loop iteration. -/
def cx1 : DState ℕ := { cx0 with producers := [⟨[7], 0, .loop_check⟩] }

def cx2 : DState ℕ := { cx1 with producers := [⟨[7], 0, .value_err⟩] }

/-! ## Toolbox: `min?`, modular indices, slices and splices -/

theorem foldl_min_spec (as : List ℕ) : ∀ a : ℕ,
    (as.foldl min a = a ∨ as.foldl min a ∈ as) ∧ as.foldl min a ≤ a ∧
      ∀ x ∈ as, as.foldl min a ≤ x := by
  induction as with
  | nil => intro a; simp
  | cons b t ih =>
    intro a
    obtain ⟨hmem, hle, hall⟩ := ih (min a b)
    simp only [List.foldl_cons]
    refine ⟨?_, le_trans hle (min_le_left a b), ?_⟩
    · rcases hmem with h | h
      · rcases min_choice a b with hab | hab
        · exact Or.inl (h.trans hab)
        · exact Or.inr (List.mem_cons.mpr (Or.inl (h.trans hab)))
      · exact Or.inr (List.mem_cons.mpr (Or.inr h))
    · intro x hx
      rcases List.mem_cons.mp hx with rfl | hx
      · exact le_trans hle (min_le_right a x)
      · exact hall x hx

theorem min?_spec {l : List ℕ} {m : ℕ} (h : l.min? = some m) :
    m ∈ l ∧ ∀ x ∈ l, m ≤ x := by
  match l with
  | [] => simp [List.min?] at h
  | a :: as =>
    simp only [List.min?, Option.some.injEq] at h
    obtain ⟨hmem, hle, hall⟩ := foldl_min_spec as a
    subst h
    refine ⟨?_, ?_⟩
    · rcases hmem with h | h
      · rw [h]; exact List.mem_cons_self a as
      · exact List.mem_cons_of_mem a h
    · intro x hx
      rcases List.mem_cons.mp hx with rfl | hx
      · exact hle
      · exact hall x hx

theorem min?_isSome_of_ne_nil {l : List ℕ} (h : l ≠ []) : ∃ m, l.min? = some m := by
  match l with
  | [] => exact absurd rfl h
  | a :: as => exact ⟨as.foldl min a, rfl⟩

theorem add_mod_left_mod (start k N : ℕ) :
    (start + k) % N = (start % N + k) % N := by
  conv_lhs => rw [Nat.add_mod]
  conv_rhs => rw [Nat.add_mod, Nat.mod_mod_of_dvd start dvd_rfl]

theorem logSlice_length {ε : Type} (log : List ε) (a b : ℕ) (hb : b ≤ log.length) :
    (logSlice log a b).length = b - a := by
  simp only [logSlice, List.length_take, List.length_drop]
  omega

theorem logSlice_get {ε : Type} (log : List ε) (a b k : ℕ) (hk : k < b - a) :
    (logSlice log a b)[k]? = log[a + k]? := by
  simp [logSlice, List.getElem?_take, hk, List.getElem?_drop]

theorem logSlice_append {ε : Type} (log t : List ε) (a b : ℕ) (hb : b ≤ log.length) :
    logSlice (log ++ t) a b = logSlice log a b := by
  have l1 : (logSlice (log ++ t) a b).length = b - a :=
    logSlice_length _ a b (by rw [List.length_append]; omega)
  have l2 : (logSlice log a b).length = b - a := logSlice_length _ a b hb
  apply List.ext_getElem?
  intro n
  by_cases hn : n < b - a
  · rw [logSlice_get _ _ _ _ hn, logSlice_get _ _ _ _ hn,
      List.getElem?_append_left (by omega)]
  · rw [List.getElem?_eq_none (by omega), List.getElem?_eq_none (by omega)]

theorem logSlice_glue {ε : Type} (log : List ε) (a b c : ℕ)
    (hab : a ≤ b) (hbc : b ≤ c) (hc : c ≤ log.length) :
    logSlice log a b ++ logSlice log b c = logSlice log a c := by
  have l1 : (logSlice log a b).length = b - a := logSlice_length _ a b (le_trans hbc hc)
  have l2 : (logSlice log b c).length = c - b := logSlice_length _ b c hc
  have l3 : (logSlice log a c).length = c - a := logSlice_length _ a c hc
  apply List.ext_getElem?
  intro n
  by_cases h1 : n < b - a
  · rw [List.getElem?_append_left (by omega), logSlice_get _ _ _ _ h1,
      logSlice_get _ _ _ _ (by omega)]
  · by_cases h2 : n < c - a
    · rw [List.getElem?_append_right (by omega), l1,
        logSlice_get _ _ _ _ (by omega), logSlice_get _ _ _ _ h2]
      congr 1
      omega
    · rw [List.getElem?_eq_none (by rw [List.length_append]; omega),
        List.getElem?_eq_none (by omega)]

theorem logSlice_isPre {ε : Type} (log : List ε) (a b : ℕ) :
    List.IsPrefix (logSlice log a b) (log.drop a) :=
  ⟨(log.drop a).drop (b - a), List.take_append_drop _ _⟩

theorem logSlice_take {ε : Type} (log : List ε) (a b b' : ℕ) (h : b ≤ b') :
    logSlice log a b = (logSlice log a b').take (b - a) := by
  unfold logSlice
  rw [List.take_take, min_eq_left (by omega)]

theorem logSlice_mono {ε : Type} (log : List ε) (a b b' : ℕ) (h : b ≤ b') :
    List.IsPrefix (logSlice log a b) (logSlice log a b') :=
  ⟨(logSlice log a b').drop (b - a), by
    rw [logSlice_take log a b b' h]; exact List.take_append_drop _ _⟩

theorem spliceAt_length {ε : Type} (l xs : List ε) (i : ℕ) (h : i + xs.length ≤ l.length) :
    (spliceAt l i xs).length = l.length := by
  simp only [spliceAt, List.length_append, List.length_take, List.length_drop]
  omega

theorem spliceAt_get_lt {ε : Type} (l xs : List ε) (i j : ℕ)
    (hj : j < i) (hi : i ≤ l.length) :
    (spliceAt l i xs)[j]? = l[j]? := by
  rw [spliceAt,
    List.getElem?_append_left
      (by simp only [List.length_append, List.length_take]; omega),
    List.getElem?_append_left (by simp only [List.length_take]; omega),
    List.getElem?_take, if_pos hj]

theorem spliceAt_get_mid {ε : Type} (l xs : List ε) (i j : ℕ)
    (h1 : i ≤ j) (hj : j < i + xs.length) (hi : i ≤ l.length) :
    (spliceAt l i xs)[j]? = xs[j - i]? := by
  rw [spliceAt,
    List.getElem?_append_left
      (by simp only [List.length_append, List.length_take]; omega),
    List.getElem?_append_right (by simp only [List.length_take]; omega)]
  congr 1
  simp only [List.length_take]
  omega

theorem spliceAt_get_ge {ε : Type} (l xs : List ε) (i j : ℕ)
    (hj : i + xs.length ≤ j) (hi : i ≤ l.length) :
    (spliceAt l i xs)[j]? = l[j]? := by
  rw [spliceAt,
    List.getElem?_append_right
      (by simp only [List.length_append, List.length_take]; omega),
    List.getElem?_drop]
  congr 1
  simp only [List.length_append, List.length_take]
  omega

/-! ## RingBuffer characterisation -/

theorem mget_length {ε : Type} (rb : RingBuffer ε) (start n : ℕ)
    (hb : rb.buffer.length = rb.size) (h0 : 0 < rb.size) (hn : n ≤ rb.size) :
    (rb.mget start n).length = n := by
  have hs : start % rb.size < rb.size := Nat.mod_lt start h0
  unfold RingBuffer.mget
  split
  · simp only [List.length_append, List.length_take, List.length_drop, hb]
    omega
  · simp only [List.length_take, List.length_drop, hb]
    omega

theorem mget_get {ε : Type} (rb : RingBuffer ε) (start n k : ℕ)
    (hb : rb.buffer.length = rb.size) (h0 : 0 < rb.size) (hn : n ≤ rb.size) (hk : k < n) :
    (rb.mget start n)[k]? = rb.buffer[(start + k) % rb.size]? := by
  have hs : start % rb.size < rb.size := Nat.mod_lt start h0
  rw [add_mod_left_mod]
  unfold RingBuffer.mget
  by_cases hw : rb.size < start % rb.size + n
  · rw [if_pos hw]
    by_cases hk2 : k < rb.size - start % rb.size
    · rw [List.getElem?_append_left (by simp only [List.length_drop, hb]; omega),
        List.getElem?_drop,
        @Nat.mod_eq_of_lt (start % rb.size + k) rb.size (by omega)]
    · rw [List.getElem?_append_right (by simp only [List.length_drop, hb]; omega),
        List.getElem?_take, if_pos (by simp only [List.length_drop, hb]; omega),
        @Nat.mod_eq_sub_mod (start % rb.size + k) rb.size (by omega),
        @Nat.mod_eq_of_lt (start % rb.size + k - rb.size) rb.size (by omega)]
      congr 1
      simp only [List.length_drop, hb]
      omega
  · rw [if_neg hw, List.getElem?_take, if_pos hk, List.getElem?_drop,
      @Nat.mod_eq_of_lt (start % rb.size + k) rb.size (by omega)]

theorem mset_size {ε : Type} (rb : RingBuffer ε) (start : ℕ) (elems : List ε) :
    (rb.mset start elems).size = rb.size := by
  unfold RingBuffer.mset
  split <;> rfl

theorem mset_buffer_of_wrap {ε : Type} {rb : RingBuffer ε} {start : ℕ} {elems : List ε}
    (hw : rb.size < start % rb.size + elems.length) :
    (rb.mset start elems).buffer =
      spliceAt
        (spliceAt rb.buffer (start % rb.size) (elems.take (rb.size - start % rb.size)))
        0 (elems.drop (rb.size - start % rb.size)) := by
  unfold RingBuffer.mset
  rw [if_pos hw]

theorem mset_buffer_of_fit {ε : Type} {rb : RingBuffer ε} {start : ℕ} {elems : List ε}
    (hw : ¬ rb.size < start % rb.size + elems.length) :
    (rb.mset start elems).buffer = spliceAt rb.buffer (start % rb.size) elems := by
  unfold RingBuffer.mset
  rw [if_neg hw]

theorem mset_buffer_length {ε : Type} (rb : RingBuffer ε) (start : ℕ) (elems : List ε)
    (hb : rb.buffer.length = rb.size) (h0 : 0 < rb.size) (hL : elems.length ≤ rb.size) :
    (rb.mset start elems).buffer.length = rb.buffer.length := by
  have hs : start % rb.size < rb.size := Nat.mod_lt start h0
  by_cases hw : rb.size < start % rb.size + elems.length
  · rw [mset_buffer_of_wrap hw]
    have h1 : (elems.take (rb.size - start % rb.size)).length
        = rb.size - start % rb.size := by
      simp only [List.length_take]; omega
    have h2 : (spliceAt rb.buffer (start % rb.size)
        (elems.take (rb.size - start % rb.size))).length = rb.buffer.length :=
      spliceAt_length _ _ _ (by rw [h1]; omega)
    rw [spliceAt_length _ _ _ (by rw [h2, List.length_drop]; omega), h2]
  · rw [mset_buffer_of_fit hw]
    exact spliceAt_length _ _ _ (by omega)

theorem mset_get_written {ε : Type} (rb : RingBuffer ε) (start : ℕ) (elems : List ε) (k : ℕ)
    (hb : rb.buffer.length = rb.size) (h0 : 0 < rb.size) (hL : elems.length ≤ rb.size)
    (hk : k < elems.length) :
    (rb.mset start elems).buffer[(start + k) % rb.size]? = elems[k]? := by
  have hs : start % rb.size < rb.size := Nat.mod_lt start h0
  rw [add_mod_left_mod]
  by_cases hw : rb.size < start % rb.size + elems.length
  · rw [mset_buffer_of_wrap hw]
    have h1 : (elems.take (rb.size - start % rb.size)).length
        = rb.size - start % rb.size := by
      simp only [List.length_take]; omega
    have h2 : (spliceAt rb.buffer (start % rb.size)
        (elems.take (rb.size - start % rb.size))).length = rb.buffer.length :=
      spliceAt_length _ _ _ (by rw [h1]; omega)
    by_cases hk2 : start % rb.size + k < rb.size
    · rw [@Nat.mod_eq_of_lt (start % rb.size + k) rb.size hk2,
        spliceAt_get_ge _ _ _ _ (by simp only [List.length_drop]; omega) (Nat.zero_le _),
        spliceAt_get_mid _ _ _ _ (by omega) (by rw [h1]; omega) (by omega)]
      have h3 : start % rb.size + k - start % rb.size = k := by omega
      rw [h3, List.getElem?_take, if_pos (by omega)]
    · rw [@Nat.mod_eq_sub_mod (start % rb.size + k) rb.size (by omega),
        @Nat.mod_eq_of_lt (start % rb.size + k - rb.size) rb.size (by omega),
        spliceAt_get_mid _ _ _ _ (Nat.zero_le _)
          (by simp only [List.length_drop]; omega) (Nat.zero_le _),
        Nat.sub_zero, List.getElem?_drop]
      congr 1
      omega
  · rw [mset_buffer_of_fit hw,
      @Nat.mod_eq_of_lt (start % rb.size + k) rb.size (by omega),
      spliceAt_get_mid _ _ _ _ (by omega) (by omega) (by omega)]
    congr 1
    omega

theorem mset_get_other {ε : Type} (rb : RingBuffer ε) (start : ℕ) (elems : List ε) (j : ℕ)
    (hb : rb.buffer.length = rb.size) (h0 : 0 < rb.size) (_hL : elems.length ≤ rb.size)
    (hj : j < rb.size)
    (hout : ∀ k, k < elems.length → (start + k) % rb.size ≠ j) :
    (rb.mset start elems).buffer[j]? = rb.buffer[j]? := by
  have hs : start % rb.size < rb.size := Nat.mod_lt start h0
  by_cases hw : rb.size < start % rb.size + elems.length
  · rw [mset_buffer_of_wrap hw]
    have h1 : (elems.take (rb.size - start % rb.size)).length
        = rb.size - start % rb.size := by
      simp only [List.length_take]; omega
    have h2 : (spliceAt rb.buffer (start % rb.size)
        (elems.take (rb.size - start % rb.size))).length = rb.buffer.length :=
      spliceAt_length _ _ _ (by rw [h1]; omega)
    have hj1 : j < start % rb.size := by
      by_contra h
      push_neg at h
      refine hout (j - start % rb.size) (by omega) ?_
      rw [add_mod_left_mod]
      have he : start % rb.size + (j - start % rb.size) = j := by omega
      rw [he, Nat.mod_eq_of_lt hj]
    have hj2 : elems.length - (rb.size - start % rb.size) ≤ j := by
      by_contra h
      push_neg at h
      refine hout (j + (rb.size - start % rb.size)) (by omega) ?_
      rw [add_mod_left_mod]
      have he : start % rb.size + (j + (rb.size - start % rb.size)) = rb.size + j := by
        omega
      rw [he, Nat.add_mod_left, Nat.mod_eq_of_lt hj]
    rw [spliceAt_get_ge _ _ _ _ (by simp only [List.length_drop]; omega) (Nat.zero_le _),
      spliceAt_get_lt _ _ _ _ hj1 (by omega)]
  · rw [mset_buffer_of_fit hw]
    have hcase : j < start % rb.size ∨ start % rb.size + elems.length ≤ j := by
      by_contra h
      push_neg at h
      refine hout (j - start % rb.size) (by omega) ?_
      rw [add_mod_left_mod]
      have he : start % rb.size + (j - start % rb.size) = j := by omega
      rw [he, Nat.mod_eq_of_lt hj]
    rcases hcase with h | h
    · exact spliceAt_get_lt _ _ _ _ h (by omega)
    · exact spliceAt_get_ge _ _ _ _ h (by omega)

theorem mset_mget_roundtrip {ε : Type} (rb : RingBuffer ε) (start : ℕ) (elems : List ε)
    (hb : rb.buffer.length = rb.size) (h0 : 0 < rb.size) (hL : elems.length ≤ rb.size) :
    (rb.mset start elems).mget start elems.length = elems := by
  have hb' : (rb.mset start elems).buffer.length = (rb.mset start elems).size := by
    rw [mset_buffer_length rb start elems hb h0 hL, mset_size, hb]
  have h0' : 0 < (rb.mset start elems).size := by rw [mset_size]; exact h0
  have hL' : elems.length ≤ (rb.mset start elems).size := by rw [mset_size]; exact hL
  apply List.ext_getElem?
  intro k
  by_cases hk : k < elems.length
  · rw [mget_get _ _ _ _ hb' h0' hL' hk]
    have hsz : (rb.mset start elems).size = rb.size := mset_size rb start elems
    rw [hsz]
    exact mset_get_written rb start elems k hb h0 hL hk
  · rw [List.getElem?_eq_none, List.getElem?_eq_none (by omega)]
    rw [mget_length _ _ _ hb' h0' hL']
    omega

/-! ## The inductive invariant -/

theorem mem_of_get? {α : Type} {l : List α} {n : ℕ} {a : α} (h : l[n]? = some a) :
    a ∈ l := by
  obtain ⟨hlt, him⟩ := List.getElem?_eq_some.mp h
  exact him ▸ List.getElem_mem hlt

/-- `WorkerCore` is stable under publication: appending to the log and
advancing the producer cursor. -/
theorem workerCore_mono {ε : Type} {P P' : ℕ} {log ext : List ε} {stop : Option ℕ}
    {w : Worker ε} (h : WorkerCore P log stop w) (hlen : log.length = P)
    (hP : P ≤ P') :
    WorkerCore P' (log ++ ext) stop w := by
  have hsl : ∀ a b : ℕ, b ≤ P → logSlice (log ++ ext) a b = logSlice log a b :=
    fun a b hb => logSlice_append log ext a b (by omega)
  obtain ⟨h1, h2, h3, h4, h5⟩ := h
  refine ⟨le_trans h1 hP, h2, h3, h4, ?_⟩
  rcases w with ⟨seq, st, avail, toc, pc, ob, cons, cc⟩
  simp only [WorkerCore, idleInv, fetchedInv, Worker.obs] at h1 h2 h5 ⊢
  cases pc with
  | outer_top => exact ⟨h5.1, h5.2.1, by rw [hsl _ _ h1]; exact h5.2.2⟩
  | inner_lock => exact ⟨h5.1, h5.2.1, by rw [hsl _ _ h1]; exact h5.2.2⟩
  | wait_prod => exact ⟨h5.1, h5.2.1, by rw [hsl _ _ h1]; exact h5.2.2⟩
  | drain_start => exact ⟨h5.1, h5.2.1, by rw [hsl _ _ h1]; exact h5.2.2⟩
  | inner_check =>
    rcases h5 with ⟨ha, ht, hobs⟩ | ⟨ha, hle, ht, hobs⟩
    · exact Or.inl ⟨ha, ht, by rw [hsl _ _ h1]; exact hobs⟩
    · exact Or.inr ⟨ha, le_trans hle hP,
        by rw [hsl _ _ hle]; exact ht, by rw [hsl _ _ h1]; exact hobs⟩
  | consuming =>
    rcases h5 with ⟨ha, ht, hobs⟩ | ⟨ha, hle, ht, hobs⟩
    · exact Or.inl ⟨ha, ht, by rw [hsl _ _ h1]; exact hobs⟩
    · exact Or.inr ⟨ha, le_trans hle hP,
        by rw [hsl _ _ hle]; exact ht, by rw [hsl _ _ h1]; exact hobs⟩
  | update_lock =>
    exact ⟨le_trans h5.1 hP, by rw [hsl _ _ h5.1]; exact h5.2⟩
  | drain_consume =>
    obtain ⟨hle, ht, hobs, hq⟩ := h5
    refine ⟨le_trans hle hP, ?_, by rw [hsl _ _ h1]; exact hobs, hq⟩
    rw [hsl _ _ hle]; exact ht
  | close_hook =>
    obtain ⟨hle, hobs, hq⟩ := h5
    exact ⟨le_trans hle hP, by rw [hsl _ _ hle]; exact hobs, hq⟩
  | done =>
    obtain ⟨hle, hobs, hq⟩ := h5
    exact ⟨le_trans hle hP, by rw [hsl _ _ hle]; exact hobs, hq⟩

/-- `WorkerCore` ignores the stop marker for workers that have not
entered the drain phase. -/
theorem workerCore_stop_any {ε : Type} {P : ℕ} {log : List ε} {stop stop' : Option ℕ}
    {w : Worker ε} (h : WorkerCore P log stop w)
    (h1 : w.pc ≠ WPC.drain_consume) (h2 : w.pc ≠ WPC.close_hook)
    (h3 : w.pc ≠ WPC.done) :
    WorkerCore P log stop' w := by
  obtain ⟨ha, hb, hc, hd, he⟩ := h
  refine ⟨ha, hb, hc, hd, ?_⟩
  rcases w with ⟨seq, st, avail, toc, pc, ob, cons, cc⟩
  simp only at h1 h2 h3
  cases pc <;> simp_all

/-- Under the invariant's ring clauses, an in-range `mget` returns
exactly the corresponding slice of the publication history. -/
theorem mget_slice {ε : Type} (s : DState ε)
    (hrl : s.ring_buffer.buffer.length = s.ring_buffer.size)
    (hll : s.produced_log.length = s.producer_seqnum)
    (hrc : ∀ i, i < s.producer_seqnum →
      s.producer_seqnum ≤ i + s.ring_buffer.size →
      s.ring_buffer.buffer[i % s.ring_buffer.size]? = s.produced_log[i]?)
    (seq a : ℕ) (hseq : seq + a ≤ s.producer_seqnum)
    (hbound : s.producer_seqnum ≤ s.ring_buffer.size + seq) (ha : 0 < a) :
    s.ring_buffer.mget seq a = logSlice s.produced_log seq (seq + a) := by
  have hn : a ≤ s.ring_buffer.size := by omega
  have h0 : 0 < s.ring_buffer.size := by omega
  apply List.ext_getElem?
  intro k
  by_cases hk : k < a
  · rw [mget_get _ _ _ _ hrl h0 hn hk, logSlice_get _ _ _ _ (by omega)]
    exact hrc (seq + k) (by omega) (by omega)
  · rw [List.getElem?_eq_none (by rw [mget_length _ _ _ hrl h0 hn]; omega),
      List.getElem?_eq_none (by rw [logSlice_length _ _ _ (by omega)]; omega)]

/-- The written slice of one produce round has length `toProduceCnt`. -/
theorem roundSlice_length {ε : Type} (s : DState ε) (m : ℕ) (p : Producer ε)
    (h : p.produced ≤ p.elements.length) :
    (roundSlice s m p).length = toProduceCnt s m p := by
  simp only [roundSlice, pySlice, toProduceCnt, List.length_take, List.length_drop]
  omega

/-- The ring-content clause survives one produce round: the written
slots hold the new slice, every other live slot is untouched. -/
theorem ring_content_step {ε : Type} (s : DState ε) (slice : List ε) (n : ℕ)
    (hrl : s.ring_buffer.buffer.length = s.ring_buffer.size)
    (hll : s.produced_log.length = s.producer_seqnum)
    (hrc : ∀ i, i < s.producer_seqnum →
      s.producer_seqnum ≤ i + s.ring_buffer.size →
      s.ring_buffer.buffer[i % s.ring_buffer.size]? = s.produced_log[i]?)
    (hslice : slice.length = n) (hn : 0 < n) (hfit : n ≤ s.ring_buffer.size) :
    ∀ i, i < s.producer_seqnum + n →
      s.producer_seqnum + n ≤ i + s.ring_buffer.size →
      (s.ring_buffer.mset s.producer_seqnum slice).buffer[i % s.ring_buffer.size]? =
        (s.produced_log ++ slice)[i]? := by
  intro i hi1 hi2
  have h0 : 0 < s.ring_buffer.size := by omega
  by_cases hge : s.producer_seqnum ≤ i
  · have hk : i - s.producer_seqnum < slice.length := by omega
    have he : s.producer_seqnum + (i - s.producer_seqnum) = i := by omega
    have hw := mset_get_written s.ring_buffer s.producer_seqnum slice
      (i - s.producer_seqnum) hrl h0 (by omega) hk
    rw [he] at hw
    rw [hw, List.getElem?_append_right (by omega)]
    congr 1
    omega
  · push_neg at hge
    have hout : ∀ k, k < slice.length →
        (s.producer_seqnum + k) % s.ring_buffer.size ≠ i % s.ring_buffer.size := by
      intro k hkk heq
      have hmod : i ≡ s.producer_seqnum + k [MOD s.ring_buffer.size] := heq.symm
      have hdvd := (Nat.modEq_iff_dvd' (by omega)).mp hmod
      have hpos : 0 < s.producer_seqnum + k - i := by omega
      have := Nat.le_of_dvd hpos hdvd
      omega
    rw [mset_get_other s.ring_buffer s.producer_seqnum slice (i % s.ring_buffer.size)
        hrl h0 (by omega) (Nat.mod_lt i h0) hout,
      List.getElem?_append_left (by omega)]
    exact hrc i (by omega) (by omega)

/-- The invariant holds initially. -/
theorem init_inv {ε : Type} (size : ℕ) (sentinel : ε) (ehs : Bool) :
    Inv (Disruptor.create size sentinel ehs) := by
  refine ⟨?_, rfl, ?_, by simp [Disruptor.create], ?_, ?_, ?_, ?_, ?_, ?_, ?_, fun _ => rfl⟩
  · exact List.length_replicate size sentinel
  · intro i h1 _
    simp [Disruptor.create] at h1
  · intro q hq
    exact absurd hq (by simp [Disruptor.create])
  · intro c hc
    exact absurd hc (by simp [Disruptor.create])
  · intro h
    exact absurd h (by simp [Disruptor.create])
  · intro _ w hw
    exact absurd hw (by simp [Disruptor.create])
  · intro w hw
    exact absurd hw (by simp [Disruptor.create])
  · intro p hp
    exact absurd hp (by simp [Disruptor.create])
  · intro w hw
    exact absurd hw (by simp [Disruptor.create])

/-- One step preserves the invariant. -/
theorem step_inv {ε : Type} {s s' : DState ε} {lab : Label ε}
    (hst : Step ε s lab s') (hinv : Inv s) : Inv s' := by
  obtain ⟨ring_len, log_len, ring_content, stop_run, stop_le, close_run, close_done,
    run_drain, producer_bound, producer_inv, worker_inv, handler_empty⟩ := hinv
  cases hst with
  | produce_call elements =>
    refine ⟨ring_len, log_len, ring_content, stop_run, stop_le, close_run, close_done,
      run_drain, producer_bound, ?_, worker_inv, handler_empty⟩
    intro p hp
    rcases List.mem_append.mp hp with hp | hp
    · exact producer_inv p hp
    · rw [List.mem_singleton] at hp
      subst hp
      refine ⟨Nat.zero_le _, ?_, fun _ => rfl⟩
      intro hd
      by_cases hr : s.running = true <;> simp [hr] at hd
  | produce_round_empty_min j p hp hpc hlt hcons =>
    refine ⟨ring_len, log_len, ring_content, stop_run, stop_le, close_run, close_done,
      run_drain, producer_bound, ?_, worker_inv, handler_empty⟩
    intro p' hp'
    rcases List.mem_or_eq_of_mem_set hp' with hp' | hp'
    · exact producer_inv p' hp'
    · subst hp'
      obtain ⟨hA, _, _⟩ := producer_inv p (mem_of_get? hp)
      refine ⟨hA, ?_, ?_⟩
      · intro h
        simp at h
      · intro h
        simp at h
  | produce_round_wait j p m hp hpc hlt hmin hfull =>
    refine ⟨ring_len, log_len, ring_content, stop_run, stop_le, close_run, close_done,
      run_drain, producer_bound, ?_, worker_inv, handler_empty⟩
    intro p' hp'
    rcases List.mem_or_eq_of_mem_set hp' with hp' | hp'
    · exact producer_inv p' hp'
    · subst hp'
      obtain ⟨hA, _, _⟩ := producer_inv p (mem_of_get? hp)
      refine ⟨hA, ?_, ?_⟩
      · intro h
        simp at h
      · intro h
        simp at h
  | produce_finish j p hp hpc hge =>
    refine ⟨ring_len, log_len, ring_content, stop_run, stop_le, close_run, close_done,
      run_drain, producer_bound, ?_, worker_inv, handler_empty⟩
    intro p' hp'
    rcases List.mem_or_eq_of_mem_set hp' with hp' | hp'
    · exact producer_inv p' hp'
    · subst hp'
      obtain ⟨hA, _, _⟩ := producer_inv p (mem_of_get? hp)
      refine ⟨hA, ?_, ?_⟩
      · intro _
        show p.produced = p.elements.length
        omega
      · intro h
        simp at h
  | produce_wake j p hp hpc =>
    refine ⟨ring_len, log_len, ring_content, stop_run, stop_le, close_run, close_done,
      run_drain, producer_bound, ?_, worker_inv, handler_empty⟩
    intro p' hp'
    rcases List.mem_or_eq_of_mem_set hp' with hp' | hp'
    · exact producer_inv p' hp'
    · subst hp'
      obtain ⟨hA, _, _⟩ := producer_inv p (mem_of_get? hp)
      refine ⟨hA, ?_, ?_⟩
      · intro h
        simp at h
      · intro h
        simp at h
  | produce_round_write j p m hp hpc hlt hmin hfree =>
    obtain ⟨hmmem, hmall⟩ := min?_spec hmin
    obtain ⟨wm, hwm, hwmseq⟩ := List.mem_map.mp hmmem
    have hmP : m ≤ s.producer_seqnum := by
      have := (worker_inv wm hwm).1
      omega
    have hmle : ∀ w ∈ s.consumers, m ≤ w.seqnum := by
      intro w hw
      exact hmall _ (List.mem_map_of_mem Worker.seqnum hw)
    have hnpos : 0 < toProduceCnt s m p := by
      simp only [toProduceCnt]
      omega
    have hnfit : toProduceCnt s m p ≤ s.ring_buffer.size := by
      simp only [toProduceCnt]
      omega
    have hslen : (roundSlice s m p).length = toProduceCnt s m p :=
      roundSlice_length s m p (producer_inv p (mem_of_get? hp)).1
    have h0 : 0 < s.ring_buffer.size := by omega
    refine ⟨?_, ?_, ?_, stop_run, ?_, close_run, close_done, run_drain, ?_, ?_, ?_,
      handler_empty⟩
    · show (s.ring_buffer.mset s.producer_seqnum (roundSlice s m p)).buffer.length
        = (s.ring_buffer.mset s.producer_seqnum (roundSlice s m p)).size
      rw [mset_size,
        mset_buffer_length _ _ _ ring_len h0 (by rw [hslen]; exact hnfit), ring_len]
    · show (s.produced_log ++ roundSlice s m p).length
        = s.producer_seqnum + toProduceCnt s m p
      rw [List.length_append, log_len, hslen]
    · show ∀ i, i < s.producer_seqnum + toProduceCnt s m p →
        s.producer_seqnum + toProduceCnt s m p ≤
          i + (s.ring_buffer.mset s.producer_seqnum (roundSlice s m p)).size →
        (s.ring_buffer.mset s.producer_seqnum (roundSlice s m p)).buffer[i %
          (s.ring_buffer.mset s.producer_seqnum (roundSlice s m p)).size]? =
          (s.produced_log ++ roundSlice s m p)[i]?
      rw [mset_size]
      exact ring_content_step s (roundSlice s m p) (toProduceCnt s m p)
        ring_len log_len ring_content hslen hnpos hnfit
    · intro q hq
      have := stop_le q hq
      show q ≤ s.producer_seqnum + toProduceCnt s m p
      omega
    · intro w hw
      have h1 := producer_bound w hw
      have h2 := hmle w hw
      show s.producer_seqnum + toProduceCnt s m p ≤
        (s.ring_buffer.mset s.producer_seqnum (roundSlice s m p)).size + w.seqnum
      rw [mset_size]
      simp only [toProduceCnt]
      omega
    · intro p' hp'
      rcases List.mem_or_eq_of_mem_set hp' with hp' | hp'
      · exact producer_inv p' hp'
      · subst hp'
        obtain ⟨hA, _, _⟩ := producer_inv p (mem_of_get? hp)
        refine ⟨?_, ?_, ?_⟩
        · show p.produced + toProduceCnt s m p ≤ p.elements.length
          simp only [toProduceCnt]
          omega
        · intro h
          simp only [hpc] at h
          simp at h
        · intro h
          simp only [hpc] at h
          simp at h
    · intro w hw
      exact workerCore_mono (worker_inv w hw) log_len
        (by show s.producer_seqnum ≤ s.producer_seqnum + toProduceCnt s m p; omega)
  | register_consumer hrun =>
    refine ⟨ring_len, log_len, ring_content, stop_run, stop_le, close_run, ?_, ?_, ?_,
      producer_inv, ?_, handler_empty⟩
    · intro hmem
      have := close_run _ hmem (by decide)
      rw [hrun] at this
      cases this
    · intro hr w hw
      rcases List.mem_append.mp hw with hw | hw
      · exact run_drain hr w hw
      · rw [List.mem_singleton] at hw
        subst hw
        exact ⟨by simp [Worker.create], by simp [Worker.create],
          by simp [Worker.create], by simp [Worker.create]⟩
    · intro w hw
      rcases List.mem_append.mp hw with hw | hw
      · exact producer_bound w hw
      · rw [List.mem_singleton] at hw
        subst hw
        exact Nat.le_add_left _ _
    · intro w hw
      rcases List.mem_append.mp hw with hw | hw
      · exact worker_inv w hw
      · rw [List.mem_singleton] at hw
        subst hw
        refine ⟨le_refl _, le_refl _, rfl, rfl, ?_⟩
        show idleInv s.produced_log (Worker.create s.producer_seqnum)
        exact ⟨rfl, rfl, by simp [Worker.create, Worker.obs, logSlice]⟩
  | close_call =>
    refine ⟨ring_len, log_len, ring_content, stop_run, stop_le, ?_, ?_, run_drain,
      producer_bound, producer_inv, worker_inv, handler_empty⟩
    · intro c hc hne
      rcases List.mem_append.mp hc with hc | hc
      · exact close_run c hc hne
      · rw [List.mem_singleton] at hc
        exact absurd hc hne
    · intro hmem
      rcases List.mem_append.mp hmem with hmem | hmem
      · exact close_done hmem
      · rw [List.mem_singleton] at hmem
        cases hmem
  | close_lock_stop k hk hrun =>
    refine ⟨ring_len, log_len, ring_content, by simp, ?_, ?_, ?_, ?_,
      producer_bound, producer_inv, ?_, handler_empty⟩
    · intro q hq
      have : s.producer_seqnum = q := by
        injection hq
      show q ≤ s.producer_seqnum
      omega
    · exact fun c _ _ => rfl
    · intro hmem
      rcases List.mem_or_eq_of_mem_set hmem with hmem | hmem
      · exact close_done hmem
      · cases hmem
    · intro hr
      cases hr
    · intro w hw
      have hd := run_drain hrun w hw
      exact workerCore_stop_any (worker_inv w hw) hd.2.1 hd.2.2.1 hd.2.2.2
  | close_lock_skip k hk hrun =>
    refine ⟨ring_len, log_len, ring_content, stop_run, stop_le, ?_, ?_, run_drain,
      producer_bound, producer_inv, worker_inv, handler_empty⟩
    · exact fun c _ _ => hrun
    · intro hmem
      rcases List.mem_or_eq_of_mem_set hmem with hmem | hmem
      · exact close_done hmem
      · cases hmem
  | close_finish k hk hall =>
    refine ⟨ring_len, log_len, ring_content, stop_run, stop_le, ?_, ?_, run_drain,
      producer_bound, producer_inv, worker_inv, handler_empty⟩
    · intro c hc hne
      exact close_run _ (mem_of_get? hk) (by decide)
    · intro hmem
      exact ⟨hall, rfl⟩
  | w_outer i w hw hpc =>
    refine ⟨ring_len, log_len, ring_content, stop_run, stop_le, close_run, ?_, ?_, ?_,
      producer_inv, ?_, handler_empty⟩
    · intro hmem
      have hd := (close_done hmem).1 w (mem_of_get? hw)
      rw [hpc] at hd
      exact absurd hd (by decide)
    · intro hr w' hw'
      rcases List.mem_or_eq_of_mem_set hw' with h | h
      · exact run_drain hr w' h
      · subst h
        have hrr : s.running = true := hr
        simp [hrr]
    · intro w' hw'
      rcases List.mem_or_eq_of_mem_set hw' with h | h
      · exact producer_bound w' h
      · subst h
        show s.producer_seqnum ≤ s.ring_buffer.size + w.seqnum
        exact producer_bound w (mem_of_get? hw)
    · intro w' hw'
      rcases List.mem_or_eq_of_mem_set hw' with h | h
      · exact worker_inv w' h
      · subst h
        obtain ⟨h1, h2, h3, h4, h5⟩ := worker_inv w (mem_of_get? hw)
        rcases w with ⟨seq, st, avail, toc, pc, ob, cons, cc⟩
        simp only at hpc
        subst hpc
        by_cases hrr : s.running = true
        · rw [if_pos hrr]
          exact ⟨h1, h2, h3, by simpa using h4, Or.inl h5⟩
        · rw [if_neg hrr]
          exact ⟨h1, h2, h3, by simpa using h4, h5⟩
  | w_inner_check i w hw hpc =>
    refine ⟨ring_len, log_len, ring_content, stop_run, stop_le, close_run, ?_, ?_, ?_,
      producer_inv, ?_, handler_empty⟩
    · intro hmem
      have hd := (close_done hmem).1 w (mem_of_get? hw)
      rw [hpc] at hd
      exact absurd hd (by decide)
    · intro hr w' hw'
      rcases List.mem_or_eq_of_mem_set hw' with h | h
      · exact run_drain hr w' h
      · subst h
        by_cases hc : w.available_count = 0 ∧ s.running = true
        · rw [if_pos hc]
          simp
        · rw [if_neg hc]
          simp
    · intro w' hw'
      rcases List.mem_or_eq_of_mem_set hw' with h | h
      · exact producer_bound w' h
      · subst h
        by_cases hc : w.available_count = 0 ∧ s.running = true
        · rw [if_pos hc]
          exact producer_bound w (mem_of_get? hw)
        · rw [if_neg hc]
          exact producer_bound w (mem_of_get? hw)
    · intro w' hw'
      rcases List.mem_or_eq_of_mem_set hw' with h | h
      · exact worker_inv w' h
      · subst h
        obtain ⟨h1, h2, h3, h4, h5⟩ := worker_inv w (mem_of_get? hw)
        rcases w with ⟨seq, st, avail, toc, pc, ob, cons, cc⟩
        simp only at hpc
        subst hpc
        by_cases hc : avail = 0 ∧ s.running = true
        · rw [if_pos hc]
          refine ⟨h1, h2, h3, by simpa using h4, ?_⟩
          show idleInv s.produced_log _
          rcases h5 with h5 | h5
          · exact h5
          · exact absurd h5.1 (by simp only; omega)
        · rw [if_neg hc]
          exact ⟨h1, h2, h3, by simpa using h4, h5⟩
  | w_inner_lock i w hw hpc =>
    have hbd := producer_bound w (mem_of_get? hw)
    refine ⟨ring_len, log_len, ring_content, stop_run, stop_le, close_run, ?_, ?_, ?_,
      producer_inv, ?_, handler_empty⟩
    · intro hmem
      have hd := (close_done hmem).1 w (mem_of_get? hw)
      rw [hpc] at hd
      exact absurd hd (by decide)
    · intro hr w' hw'
      rcases List.mem_or_eq_of_mem_set hw' with h | h
      · exact run_drain hr w' h
      · subst h
        by_cases ha : 0 < s.producer_seqnum - w.seqnum
        · rw [if_pos ha]
          simp
        · rw [if_neg ha]
          simp
    · intro w' hw'
      rcases List.mem_or_eq_of_mem_set hw' with h | h
      · exact producer_bound w' h
      · subst h
        by_cases ha : 0 < s.producer_seqnum - w.seqnum
        · rw [if_pos ha]
          exact hbd
        · rw [if_neg ha]
          exact hbd
    · intro w' hw'
      rcases List.mem_or_eq_of_mem_set hw' with h | h
      · exact worker_inv w' h
      · subst h
        obtain ⟨h1, h2, h3, h4, h5⟩ := worker_inv w (mem_of_get? hw)
        rcases w with ⟨seq, st, avail, toc, pc, ob, cons, cc⟩
        simp only at hpc
        subst hpc
        obtain ⟨havail, htoc, hobs⟩ := h5
        simp only at h1 h2 hbd havail htoc hobs
        by_cases ha : 0 < s.producer_seqnum - seq
        · rw [if_pos ha]
          refine ⟨h1, h2, h3, by simpa using h4, Or.inr ⟨ha, ?_, ?_, hobs⟩⟩
          · show seq + (s.producer_seqnum - seq) ≤ s.producer_seqnum
            omega
          · show some (s.ring_buffer.mget seq (s.producer_seqnum - seq)) =
              some (logSlice s.produced_log seq (seq + (s.producer_seqnum - seq)))
            rw [mget_slice s ring_len log_len ring_content seq
              (s.producer_seqnum - seq) (by omega) hbd ha]
        · rw [if_neg ha]
          exact ⟨h1, h2, h3, by simpa using h4, havail, htoc, hobs⟩
  | w_wake i w hw hpc =>
    refine ⟨ring_len, log_len, ring_content, stop_run, stop_le, close_run, ?_, ?_, ?_,
      producer_inv, ?_, handler_empty⟩
    · intro hmem
      have hd := (close_done hmem).1 w (mem_of_get? hw)
      rw [hpc] at hd
      exact absurd hd (by decide)
    · intro hr w' hw'
      rcases List.mem_or_eq_of_mem_set hw' with h | h
      · exact run_drain hr w' h
      · subst h
        simp
    · intro w' hw'
      rcases List.mem_or_eq_of_mem_set hw' with h | h
      · exact producer_bound w' h
      · subst h
        show s.producer_seqnum ≤ s.ring_buffer.size + w.seqnum
        exact producer_bound w (mem_of_get? hw)
    · intro w' hw'
      rcases List.mem_or_eq_of_mem_set hw' with h | h
      · exact worker_inv w' h
      · subst h
        obtain ⟨h1, h2, h3, h4, h5⟩ := worker_inv w (mem_of_get? hw)
        rcases w with ⟨seq, st, avail, toc, pc, ob, cons, cc⟩
        simp only at hpc
        subst hpc
        exact ⟨h1, h2, h3, by simpa using h4, Or.inl h5⟩
  | w_consume_batch i w l fail hw hpc hto hne =>
    refine ⟨ring_len, log_len, ring_content, stop_run, stop_le, close_run, ?_, ?_, ?_,
      producer_inv, ?_, ?_⟩
    · intro hmem
      have hd := (close_done hmem).1 w (mem_of_get? hw)
      rw [hpc] at hd
      exact absurd hd (by decide)
    · intro hr w' hw'
      rcases List.mem_or_eq_of_mem_set hw' with h | h
      · exact run_drain hr w' h
      · subst h
        simp
    · intro w' hw'
      rcases List.mem_or_eq_of_mem_set hw' with h | h
      · exact producer_bound w' h
      · subst h
        show s.producer_seqnum ≤ s.ring_buffer.size + w.seqnum
        exact producer_bound w (mem_of_get? hw)
    · intro w' hw'
      rcases List.mem_or_eq_of_mem_set hw' with h | h
      · exact worker_inv w' h
      · subst h
        obtain ⟨h1, h2, h3, h4, h5⟩ := worker_inv w (mem_of_get? hw)
        rcases w with ⟨seq, st, avail, toc, pc, ob, cons, cc⟩
        simp only at hpc hto
        subst hpc
        rcases h5 with ⟨havail, htoc, hobs⟩ | ⟨hapos, hle, htoc, hobs⟩
        · simp only at htoc
          rw [htoc] at hto
          exact Option.noConfusion hto
        · simp only at h1 h2 h3 hle htoc
          simp only [Worker.obs] at hobs
          have hl : l = logSlice s.produced_log seq (seq + avail) := by
            rw [hto] at htoc
            exact Option.some.inj htoc
          refine ⟨h1, h2, ?_, by simpa using h4, ?_⟩
          · show cons + l.length = ((ob ++ [l]).map List.length).sum
            rw [List.map_append, List.sum_append, h3]
            simp
          · show seq + avail ≤ s.producer_seqnum ∧
              (ob ++ [l]).flatten = logSlice s.produced_log st (seq + avail)
            refine ⟨hle, ?_⟩
            have hg := logSlice_glue s.produced_log st seq (seq + avail) h2
              (Nat.le_add_right _ _) (by rw [log_len]; exact hle)
            rw [List.flatten_append, hobs, hl]
            simpa using hg
    · intro hehs
      show (if fail && s.error_handler_set then s.error_handler_log ++ [(i, l)]
        else s.error_handler_log) = []
      rw [hehs]
      simpa using handler_empty hehs
  | w_consume_skip i w fail hw hpc hto =>
    refine ⟨ring_len, log_len, ring_content, stop_run, stop_le, close_run, ?_, ?_, ?_,
      producer_inv, ?_, handler_empty⟩
    · intro hmem
      have hd := (close_done hmem).1 w (mem_of_get? hw)
      rw [hpc] at hd
      exact absurd hd (by decide)
    · intro hr w' hw'
      rcases List.mem_or_eq_of_mem_set hw' with h | h
      · exact run_drain hr w' h
      · subst h
        simp
    · intro w' hw'
      rcases List.mem_or_eq_of_mem_set hw' with h | h
      · exact producer_bound w' h
      · subst h
        show s.producer_seqnum ≤ s.ring_buffer.size + w.seqnum
        exact producer_bound w (mem_of_get? hw)
    · intro w' hw'
      rcases List.mem_or_eq_of_mem_set hw' with h | h
      · exact worker_inv w' h
      · subst h
        obtain ⟨h1, h2, h3, h4, h5⟩ := worker_inv w (mem_of_get? hw)
        rcases w with ⟨seq, st, avail, toc, pc, ob, cons, cc⟩
        simp only at hpc hto
        subst hpc
        rcases h5 with ⟨havail, htoc, hobs⟩ | ⟨hapos, hle, htoc, hobs⟩
        · simp only at h1 h2 havail htoc hobs
          refine ⟨h1, h2, h3, by simpa using h4, ?_⟩
          show seq + avail ≤ s.producer_seqnum ∧
            ob.flatten = logSlice s.produced_log st (seq + avail)
          rw [havail]
          exact ⟨by omega, by simpa using hobs⟩
        · simp only at hapos hle htoc
          rcases hto with hto | hto
          · rw [htoc] at hto
            exact Option.noConfusion hto
          · rw [htoc] at hto
            have hl := Option.some.inj hto
            have hlen := congrArg List.length hl
            rw [logSlice_length _ _ _ (by rw [log_len]; exact hle)] at hlen
            simp only [List.length_nil] at hlen
            exact absurd hlen (by omega)
  | w_update i w hw hpc =>
    refine ⟨ring_len, log_len, ring_content, stop_run, stop_le, close_run, ?_, ?_, ?_,
      producer_inv, ?_, handler_empty⟩
    · intro hmem
      have hd := (close_done hmem).1 w (mem_of_get? hw)
      rw [hpc] at hd
      exact absurd hd (by decide)
    · intro hr w' hw'
      rcases List.mem_or_eq_of_mem_set hw' with h | h
      · exact run_drain hr w' h
      · subst h
        simp
    · intro w' hw'
      rcases List.mem_or_eq_of_mem_set hw' with h | h
      · exact producer_bound w' h
      · subst h
        show s.producer_seqnum ≤ s.ring_buffer.size + (w.seqnum + w.available_count)
        have := producer_bound w (mem_of_get? hw)
        omega
    · intro w' hw'
      rcases List.mem_or_eq_of_mem_set hw' with h | h
      · exact worker_inv w' h
      · subst h
        obtain ⟨h1, h2, h3, h4, h5⟩ := worker_inv w (mem_of_get? hw)
        rcases w with ⟨seq, st, avail, toc, pc, ob, cons, cc⟩
        simp only at hpc
        subst hpc
        obtain ⟨hle, hobs⟩ := h5
        simp only at h1 h2 hle hobs
        refine ⟨hle, ?_, h3, by simpa using h4, ?_⟩
        · show st ≤ seq + avail
          omega
        · show idleInv s.produced_log _
          exact ⟨rfl, rfl, hobs⟩
  | w_drain_lock i w hw hpc =>
    have hbd := producer_bound w (mem_of_get? hw)
    refine ⟨ring_len, log_len, ring_content, stop_run, stop_le, close_run, ?_, ?_, ?_,
      producer_inv, ?_, handler_empty⟩
    · intro hmem
      have hd := (close_done hmem).1 w (mem_of_get? hw)
      rw [hpc] at hd
      exact absurd hd (by decide)
    · intro hr w' hw'
      rcases List.mem_or_eq_of_mem_set hw' with h | h
      · exact run_drain hr w' h
      · subst h
        exact absurd hpc (run_drain hr w (mem_of_get? hw)).1
    · intro w' hw'
      rcases List.mem_or_eq_of_mem_set hw' with h | h
      · exact producer_bound w' h
      · subst h
        show s.producer_seqnum ≤ s.ring_buffer.size + w.seqnum
        exact hbd
    · intro w' hw'
      rcases List.mem_or_eq_of_mem_set hw' with h | h
      · exact worker_inv w' h
      · subst h
        obtain ⟨h1, h2, h3, h4, h5⟩ := worker_inv w (mem_of_get? hw)
        rcases w with ⟨seq, st, avail, toc, pc, ob, cons, cc⟩
        simp only at hpc
        subst hpc
        obtain ⟨havail, htoc, hobs⟩ := h5
        simp only at h1 h2 hbd havail htoc hobs
        refine ⟨h1, h2, h3, by simpa using h4, ?_, ?_, hobs, ?_⟩
        · show seq + (s.producer_seqnum - seq) ≤ s.producer_seqnum
          omega
        · show (if 0 < s.producer_seqnum - seq
              then some (s.ring_buffer.mget seq (s.producer_seqnum - seq)) else none) =
            (if 0 < s.producer_seqnum - seq
              then some (logSlice s.produced_log seq (seq + (s.producer_seqnum - seq)))
              else none)
          by_cases ha : 0 < s.producer_seqnum - seq
          · rw [if_pos ha, if_pos ha,
              mget_slice s ring_len log_len ring_content seq
                (s.producer_seqnum - seq) (by omega) hbd ha]
          · rw [if_neg ha, if_neg ha]
        · intro q hq
          have := stop_le q hq
          show q ≤ seq + (s.producer_seqnum - seq)
          omega
  | w_drain_consume_batch i w l fail hw hpc hto hne =>
    refine ⟨ring_len, log_len, ring_content, stop_run, stop_le, close_run, ?_, ?_, ?_,
      producer_inv, ?_, ?_⟩
    · intro hmem
      have hd := (close_done hmem).1 w (mem_of_get? hw)
      rw [hpc] at hd
      exact absurd hd (by decide)
    · intro hr w' hw'
      rcases List.mem_or_eq_of_mem_set hw' with h | h
      · exact run_drain hr w' h
      · subst h
        exact absurd hpc (run_drain hr w (mem_of_get? hw)).2.1
    · intro w' hw'
      rcases List.mem_or_eq_of_mem_set hw' with h | h
      · exact producer_bound w' h
      · subst h
        show s.producer_seqnum ≤ s.ring_buffer.size + w.seqnum
        exact producer_bound w (mem_of_get? hw)
    · intro w' hw'
      rcases List.mem_or_eq_of_mem_set hw' with h | h
      · exact worker_inv w' h
      · subst h
        obtain ⟨h1, h2, h3, h4, h5⟩ := worker_inv w (mem_of_get? hw)
        rcases w with ⟨seq, st, avail, toc, pc, ob, cons, cc⟩
        simp only at hpc hto
        subst hpc
        obtain ⟨hle, htoc, hobs, hq⟩ := h5
        simp only at h1 h2 h3 hle htoc hq
        simp only [Worker.obs] at hobs
        by_cases ha : 0 < avail
        · rw [if_pos ha] at htoc
          have hl : l = logSlice s.produced_log seq (seq + avail) := by
            rw [hto] at htoc
            exact Option.some.inj htoc
          refine ⟨h1, h2, ?_, by simpa using h4, ?_⟩
          · show cons + l.length = ((ob ++ [l]).map List.length).sum
            rw [List.map_append, List.sum_append, h3]
            simp
          · show seq + avail ≤ s.producer_seqnum ∧
              (ob ++ [l]).flatten = logSlice s.produced_log st (seq + avail) ∧
              ∀ q, s.stop_seqnum = some q → q ≤ seq + avail
            refine ⟨hle, ?_, hq⟩
            have hg := logSlice_glue s.produced_log st seq (seq + avail) h2
              (Nat.le_add_right _ _) (by rw [log_len]; exact hle)
            rw [List.flatten_append, hobs, hl]
            simpa using hg
        · rw [if_neg ha] at htoc
          rw [htoc] at hto
          exact Option.noConfusion hto
    · intro hehs
      show (if fail && s.error_handler_set then s.error_handler_log ++ [(i, l)]
        else s.error_handler_log) = []
      rw [hehs]
      simpa using handler_empty hehs
  | w_drain_consume_skip i w fail hw hpc hto =>
    refine ⟨ring_len, log_len, ring_content, stop_run, stop_le, close_run, ?_, ?_, ?_,
      producer_inv, ?_, handler_empty⟩
    · intro hmem
      have hd := (close_done hmem).1 w (mem_of_get? hw)
      rw [hpc] at hd
      exact absurd hd (by decide)
    · intro hr w' hw'
      rcases List.mem_or_eq_of_mem_set hw' with h | h
      · exact run_drain hr w' h
      · subst h
        exact absurd hpc (run_drain hr w (mem_of_get? hw)).2.1
    · intro w' hw'
      rcases List.mem_or_eq_of_mem_set hw' with h | h
      · exact producer_bound w' h
      · subst h
        show s.producer_seqnum ≤ s.ring_buffer.size + w.seqnum
        exact producer_bound w (mem_of_get? hw)
    · intro w' hw'
      rcases List.mem_or_eq_of_mem_set hw' with h | h
      · exact worker_inv w' h
      · subst h
        obtain ⟨h1, h2, h3, h4, h5⟩ := worker_inv w (mem_of_get? hw)
        rcases w with ⟨seq, st, avail, toc, pc, ob, cons, cc⟩
        simp only at hpc hto
        subst hpc
        obtain ⟨hle, htoc, hobs, hq⟩ := h5
        simp only at h1 h2 hle htoc hq
        simp only [Worker.obs] at hobs
        by_cases ha : 0 < avail
        · rw [if_pos ha] at htoc
          rcases hto with hto | hto
          · rw [htoc] at hto
            exact Option.noConfusion hto
          · rw [htoc] at hto
            have hl := Option.some.inj hto
            have hlen := congrArg List.length hl
            rw [logSlice_length _ _ _ (by rw [log_len]; exact hle)] at hlen
            simp only [List.length_nil] at hlen
            exact absurd hlen (by omega)
        · have ha0 : avail = 0 := by omega
          refine ⟨h1, h2, h3, by simpa using h4, ?_⟩
          show seq + avail ≤ s.producer_seqnum ∧
            ob.flatten = logSlice s.produced_log st (seq + avail) ∧
            ∀ q, s.stop_seqnum = some q → q ≤ seq + avail
          subst ha0
          exact ⟨hle, by simpa using hobs, hq⟩
  | w_close_hook i w hw hpc =>
    refine ⟨ring_len, log_len, ring_content, stop_run, stop_le, close_run, ?_, ?_, ?_,
      producer_inv, ?_, handler_empty⟩
    · intro hmem
      have hd := (close_done hmem).1 w (mem_of_get? hw)
      rw [hpc] at hd
      exact absurd hd (by decide)
    · intro hr w' hw'
      rcases List.mem_or_eq_of_mem_set hw' with h | h
      · exact run_drain hr w' h
      · subst h
        exact absurd hpc (run_drain hr w (mem_of_get? hw)).2.2.1
    · intro w' hw'
      rcases List.mem_or_eq_of_mem_set hw' with h | h
      · exact producer_bound w' h
      · subst h
        show s.producer_seqnum ≤ s.ring_buffer.size + w.seqnum
        exact producer_bound w (mem_of_get? hw)
    · intro w' hw'
      rcases List.mem_or_eq_of_mem_set hw' with h | h
      · exact worker_inv w' h
      · subst h
        obtain ⟨h1, h2, h3, h4, h5⟩ := worker_inv w (mem_of_get? hw)
        rcases w with ⟨seq, st, avail, toc, pc, ob, cons, cc⟩
        simp only at hpc
        subst hpc
        obtain ⟨hle, hobs, hq⟩ := h5
        refine ⟨h1, h2, h3, ?_, ?_⟩
        · show cc + 1 = if WPC.done = WPC.done then 1 else 0
          have hcc : cc = 0 := by simpa using h4
          rw [if_pos rfl, hcc]
        · exact ⟨hle, hobs, hq⟩

/-- Every reachable state satisfies the invariant. -/
theorem reachable_inv {ε : Type} {size : ℕ} {sentinel : ε} {ehs : Bool} {s : DState ε}
    (h : Reachable ε size sentinel ehs s) : Inv s := by
  induction h with
  | init => exact init_inv size sentinel ehs
  | step hr hst ih => exact step_inv hst ih

/-! ## Lag-statistics lemmas -/

theorem foldl_max_spec (as : List ℚ) : ∀ a : ℚ,
    (as.foldl max a = a ∨ as.foldl max a ∈ as) ∧ a ≤ as.foldl max a ∧
      ∀ x ∈ as, x ≤ as.foldl max a := by
  induction as with
  | nil => intro a; simp
  | cons b t ih =>
    intro a
    obtain ⟨hmem, hle, hall⟩ := ih (max a b)
    simp only [List.foldl_cons]
    refine ⟨?_, le_trans (le_max_left a b) hle, ?_⟩
    · rcases hmem with h | h
      · rcases max_choice a b with hab | hab
        · exact Or.inl (h.trans hab)
        · exact Or.inr (List.mem_cons.mpr (Or.inl (h.trans hab)))
      · exact Or.inr (List.mem_cons.mpr (Or.inr h))
    · intro x hx
      rcases List.mem_cons.mp hx with rfl | hx
      · exact le_trans (le_max_right a x) hle
      · exact hall x hx

theorem lag_fold_n (vs : List ℚ) : ∀ st : RingBufferLagStats,
    (vs.foldl RingBufferLagStats.sample st).n_samples = st.n_samples + vs.length := by
  induction vs with
  | nil => intro st; simp
  | cons v t ih =>
    intro st
    simp only [List.foldl_cons, ih, RingBufferLagStats.sample, List.length_cons]
    omega

theorem lag_fold_avg (vs : List ℚ) : ∀ st : RingBufferLagStats,
    (vs.foldl RingBufferLagStats.sample st).avg_lag *
      ((vs.foldl RingBufferLagStats.sample st).n_samples : ℚ) =
    st.avg_lag * (st.n_samples : ℚ) + vs.sum := by
  induction vs with
  | nil => intro st; simp
  | cons v t ih =>
    intro st
    simp only [List.foldl_cons]
    rw [ih]
    have hb : ((st.n_samples : ℚ) + 1) ≠ 0 := by positivity
    simp only [RingBufferLagStats.sample, List.sum_cons]
    push_cast
    rw [div_mul_cancel₀ _ hb]
    ring

theorem lag_fold_max (vs : List ℚ) : ∀ st : RingBufferLagStats,
    (vs.foldl RingBufferLagStats.sample st).max_lag = vs.foldl max st.max_lag := by
  induction vs with
  | nil => intro st; simp
  | cons v t ih =>
    intro st
    simp only [List.foldl_cons, ih]
    congr 1
    simp only [RingBufferLagStats.sample]
    rcases lt_or_ge st.max_lag v with h | h
    · rw [if_pos h, max_eq_right (le_of_lt h)]
    · rw [if_neg (not_lt.mpr h), max_eq_left h]

theorem lag_fold_cur (vs : List ℚ) : ∀ st : RingBufferLagStats,
    (vs.foldl RingBufferLagStats.sample st).cur_lag = vs.getLast?.getD st.cur_lag := by
  induction vs with
  | nil => intro st; simp
  | cons v t ih =>
    intro st
    simp only [List.foldl_cons, ih]
    cases t with
    | nil => simp [RingBufferLagStats.sample]
    | cons b u =>
      rw [List.getLast?_cons_cons]
      have hsome : ∃ x, (b :: u).getLast? = some x := by
        cases hx : (b :: u).getLast? with
        | none => exact absurd hx (by simp)
        | some x => exact ⟨x, rfl⟩
      obtain ⟨x, hx⟩ := hsome
      rw [hx]
      rfl

theorem str01 : Step ℕ tr0 Label.register_consumer tr1 :=
  Step.register_consumer tr0 rfl

theorem str12 : Step ℕ tr1 (Label.produce_call [5, 6, 7]) tr2 :=
  Step.produce_call tr1 [5, 6, 7]

theorem str23 : Step ℕ tr2 (Label.produce_round_write 0) tr3 :=
  Step.produce_round_write tr2 0 ⟨[5, 6, 7], 0, .loop_check⟩ 0 rfl rfl
    (by decide) rfl (by decide)

theorem str34 : Step ℕ tr3 (Label.w_outer 0) tr4 :=
  Step.w_outer tr3 0 ⟨0, 0, 0, none, .outer_top, [], 0, 0⟩ rfl rfl

theorem str45 : Step ℕ tr4 (Label.w_inner_check 0) tr5 :=
  Step.w_inner_check tr4 0 ⟨0, 0, 0, none, .inner_check, [], 0, 0⟩ rfl rfl

theorem str56 : Step ℕ tr5 (Label.w_inner_lock 0) tr6 :=
  Step.w_inner_lock tr5 0 ⟨0, 0, 0, none, .inner_lock, [], 0, 0⟩ rfl rfl

theorem str67 : Step ℕ tr6 (Label.w_inner_check 0) tr7 :=
  Step.w_inner_check tr6 0 ⟨0, 0, 2, some [5, 6], .inner_check, [], 0, 0⟩ rfl rfl

theorem str78 : Step ℕ tr7 (Label.w_consume 0 true) tr8 :=
  Step.w_consume_batch tr7 0 ⟨0, 0, 2, some [5, 6], .consuming, [], 0, 0⟩ [5, 6] true
    rfl rfl rfl (by decide)

theorem str89 : Step ℕ tr8 (Label.w_update 0) tr9 :=
  Step.w_update tr8 0 ⟨0, 0, 2, some [5, 6], .update_lock, [[5, 6]], 2, 0⟩ rfl rfl

theorem str910 : Step ℕ tr9 (Label.produce_round_write 0) tr10 :=
  Step.produce_round_write tr9 0 ⟨[5, 6, 7], 2, .loop_check⟩ 2 rfl rfl
    (by decide) rfl (by decide)

theorem str1011 : Step ℕ tr10 (Label.produce_finish 0) tr11 :=
  Step.produce_finish tr10 0 ⟨[5, 6, 7], 3, .loop_check⟩ rfl rfl (by decide)

theorem str1112 : Step ℕ tr11 Label.close_call tr12 :=
  Step.close_call tr11

theorem str1213 : Step ℕ tr12 (Label.close_lock 0) tr13 :=
  Step.close_lock_stop tr12 0 rfl rfl

theorem str1314 : Step ℕ tr13 (Label.w_outer 0) tr14 :=
  Step.w_outer tr13 0 ⟨2, 0, 0, none, .outer_top, [[5, 6]], 2, 0⟩ rfl rfl

theorem str1415 : Step ℕ tr14 (Label.w_drain_lock 0) tr15 :=
  Step.w_drain_lock tr14 0 ⟨2, 0, 0, none, .drain_start, [[5, 6]], 2, 0⟩ rfl rfl

theorem str1516 : Step ℕ tr15 (Label.w_drain_consume 0 false) tr16 :=
  Step.w_drain_consume_batch tr15 0 ⟨2, 0, 1, some [7], .drain_consume, [[5, 6]], 2, 0⟩
    [7] false rfl rfl rfl (by decide)

theorem str1617 : Step ℕ tr16 (Label.w_close_hook 0) tr17 :=
  Step.w_close_hook tr16 0 ⟨2, 0, 1, some [7], .close_hook, [[5, 6], [7]], 3, 0⟩ rfl rfl

theorem str1718 : Step ℕ tr17 (Label.close_finish 0) tr18 :=
  Step.close_finish tr17 0 rfl (by decide)

theorem rch0 : Reachable ℕ 2 0 true tr0 := Reachable.init

theorem rch2 : Reachable ℕ 2 0 true tr2 :=
  ((rch0.step str01).step str12)

theorem rch7 : Reachable ℕ 2 0 true tr7 :=
  ((((rch2.step str23).step str34).step str45).step str56).step str67

theorem rch9 : Reachable ℕ 2 0 true tr9 :=
  (rch7.step str78).step str89

theorem rch10 : Reachable ℕ 2 0 true tr10 := rch9.step str910

theorem rch13 : Reachable ℕ 2 0 true tr13 :=
  ((rch10.step str1011).step str1112).step str1213

theorem rch18 : Reachable ℕ 2 0 true tr18 :=
  ((((rch13.step str1314).step str1415).step str1516).step str1617).step str1718

/-! ## Helpers for the claim theorems -/

theorem pySlice_get {ε : Type} (l : List ε) (a n k : ℕ) (hk : k < n) :
    (pySlice l a n)[k]? = l[a + k]? := by
  rw [pySlice, List.getElem?_take, if_pos hk, List.getElem?_drop]

/-- In every phase, a worker's observed stream is an initial segment of
the publications from its registration point. -/
theorem workerCore_obs {ε : Type} {P : ℕ} {log : List ε} {stop : Option ℕ}
    {w : Worker ε} (h : WorkerCore P log stop w) :
    ∃ b, b ≤ P ∧ Worker.obs w = logSlice log w.start_seqnum b := by
  obtain ⟨h1, h2, h3, h4, h5⟩ := h
  rcases w with ⟨seq, st, avail, toc, pc, ob, cons, cc⟩
  simp only at h1 h2 ⊢
  cases pc with
  | outer_top => exact ⟨seq, h1, h5.2.2⟩
  | inner_lock => exact ⟨seq, h1, h5.2.2⟩
  | wait_prod => exact ⟨seq, h1, h5.2.2⟩
  | drain_start => exact ⟨seq, h1, h5.2.2⟩
  | inner_check =>
    rcases h5 with h5 | h5
    · exact ⟨seq, h1, h5.2.2⟩
    · exact ⟨seq, h1, h5.2.2.2⟩
  | consuming =>
    rcases h5 with h5 | h5
    · exact ⟨seq, h1, h5.2.2⟩
    · exact ⟨seq, h1, h5.2.2.2⟩
  | update_lock => exact ⟨seq + avail, h5.1, h5.2⟩
  | drain_consume => exact ⟨seq, h1, h5.2.2.1⟩
  | close_hook => exact ⟨seq + avail, h5.1, h5.2.1⟩
  | done => exact ⟨seq + avail, h5.1, h5.2.1⟩

/-- Once the running flag is off it stays off (no step turns it back on). -/
theorem step_running_mono {ε : Type} {s s' : DState ε} {lab : Label ε}
    (hst : Step ε s lab s') (hr : s.running = false) : s'.running = false := by
  cases hst <;> first | exact hr | rfl

/-- No step ever turns an in-flight producer into the `Stopped` failure:
the entry check is the only place the error arises. -/
theorem step_no_new_stopped {ε : Type} {s s' : DState ε} {lab : Label ε}
    (hst : Step ε s lab s') {j : ℕ} {p p' : Producer ε}
    (hp : s.producers[j]? = some p) (hp' : s'.producers[j]? = some p')
    (hne : p.pc ≠ PPC.stopped_err) : p'.pc ≠ PPC.stopped_err := by
  have hjlt : j < s.producers.length := (List.getElem?_eq_some.mp hp).1
  cases hst with
  | produce_call elements =>
    rw [List.getElem?_append_left hjlt] at hp'
    obtain rfl : p' = p := Option.some.inj (hp'.symm.trans hp)
    exact hne
  | produce_round_empty_min j0 p0 hp0 hpc0 hlt0 hcons0 =>
    by_cases hj : j0 = j
    · subst hj
      rw [List.getElem?_set_self (List.getElem?_eq_some.mp hp0).1] at hp'
      obtain rfl := Option.some.inj hp'
      simp
    · rw [List.getElem?_set_ne hj] at hp'
      obtain rfl : p' = p := Option.some.inj (hp'.symm.trans hp)
      exact hne
  | produce_round_wait j0 p0 m0 hp0 hpc0 hlt0 hmin0 hfull0 =>
    by_cases hj : j0 = j
    · subst hj
      rw [List.getElem?_set_self (List.getElem?_eq_some.mp hp0).1] at hp'
      obtain rfl := Option.some.inj hp'
      simp
    · rw [List.getElem?_set_ne hj] at hp'
      obtain rfl : p' = p := Option.some.inj (hp'.symm.trans hp)
      exact hne
  | produce_round_write j0 p0 m0 hp0 hpc0 hlt0 hmin0 hfree0 =>
    by_cases hj : j0 = j
    · subst hj
      rw [List.getElem?_set_self (List.getElem?_eq_some.mp hp0).1] at hp'
      obtain rfl := Option.some.inj hp'
      show p0.pc ≠ PPC.stopped_err
      rw [hpc0]
      decide
    · rw [List.getElem?_set_ne hj] at hp'
      obtain rfl : p' = p := Option.some.inj (hp'.symm.trans hp)
      exact hne
  | produce_finish j0 p0 hp0 hpc0 hge0 =>
    by_cases hj : j0 = j
    · subst hj
      rw [List.getElem?_set_self (List.getElem?_eq_some.mp hp0).1] at hp'
      obtain rfl := Option.some.inj hp'
      simp
    · rw [List.getElem?_set_ne hj] at hp'
      obtain rfl : p' = p := Option.some.inj (hp'.symm.trans hp)
      exact hne
  | produce_wake j0 p0 hp0 hpc0 =>
    by_cases hj : j0 = j
    · subst hj
      rw [List.getElem?_set_self (List.getElem?_eq_some.mp hp0).1] at hp'
      obtain rfl := Option.some.inj hp'
      simp
    · rw [List.getElem?_set_ne hj] at hp'
      obtain rfl : p' = p := Option.some.inj (hp'.symm.trans hp)
      exact hne
  | register_consumer hrun =>
    obtain rfl : p' = p := Option.some.inj (hp'.symm.trans hp)
    exact hne
  | w_outer i w hw hpc =>
    obtain rfl : p' = p := Option.some.inj (hp'.symm.trans hp)
    exact hne
  | w_inner_check i w hw hpc =>
    obtain rfl : p' = p := Option.some.inj (hp'.symm.trans hp)
    exact hne
  | w_inner_lock i w hw hpc =>
    obtain rfl : p' = p := Option.some.inj (hp'.symm.trans hp)
    exact hne
  | w_wake i w hw hpc =>
    obtain rfl : p' = p := Option.some.inj (hp'.symm.trans hp)
    exact hne
  | w_consume_batch i w l fail hw hpc hto hne2 =>
    obtain rfl : p' = p := Option.some.inj (hp'.symm.trans hp)
    exact hne
  | w_consume_skip i w fail hw hpc hto =>
    obtain rfl : p' = p := Option.some.inj (hp'.symm.trans hp)
    exact hne
  | w_update i w hw hpc =>
    obtain rfl : p' = p := Option.some.inj (hp'.symm.trans hp)
    exact hne
  | w_drain_lock i w hw hpc =>
    obtain rfl : p' = p := Option.some.inj (hp'.symm.trans hp)
    exact hne
  | w_drain_consume_batch i w l fail hw hpc hto hne2 =>
    obtain rfl : p' = p := Option.some.inj (hp'.symm.trans hp)
    exact hne
  | w_drain_consume_skip i w fail hw hpc hto =>
    obtain rfl : p' = p := Option.some.inj (hp'.symm.trans hp)
    exact hne
  | w_close_hook i w hw hpc =>
    obtain rfl : p' = p := Option.some.inj (hp'.symm.trans hp)
    exact hne
  | close_call =>
    obtain rfl : p' = p := Option.some.inj (hp'.symm.trans hp)
    exact hne
  | close_lock_stop k hk hrun =>
    obtain rfl : p' = p := Option.some.inj (hp'.symm.trans hp)
    exact hne
  | close_lock_skip k hk hrun =>
    obtain rfl : p' = p := Option.some.inj (hp'.symm.trans hp)
    exact hne
  | close_finish k hk hall =>
    obtain rfl : p' = p := Option.some.inj (hp'.symm.trans hp)
    exact hne

/-! ## The claims -/

/-- C1: Reachable-state invariant.  At every lock-free point of every
interleaving of produce steps and consumer-worker steps, every
registered consumer's cursor satisfies `0 ≤ Ci ≤ P`, and the producer
cursor never outruns any consumer (in particular the slowest) by more
than the buffer size: `P − Ci ≤ capacity`, hence `P − min(Ci) ≤ capacity`. -/
theorem C1_cursor_invariant {ε : Type} {size : ℕ} {sentinel : ε} {ehs : Bool}
    {s : DState ε} (h : Reachable ε size sentinel ehs s) :
    ∀ w ∈ s.consumers,
      (0 ≤ w.seqnum ∧ w.seqnum ≤ s.producer_seqnum) ∧
      s.producer_seqnum - w.seqnum ≤ s.ring_buffer.size ∧
      (∀ m, minConsumerSeq s = some m →
        s.producer_seqnum - m ≤ s.ring_buffer.size) := by
  intro w hw
  have hinv := reachable_inv h
  have h1 := (hinv.worker_inv w hw).1
  have h2 := hinv.producer_bound w hw
  refine ⟨⟨Nat.zero_le _, h1⟩, by omega, ?_⟩
  intro m hm
  obtain ⟨hmem, _⟩ := min?_spec hm
  obtain ⟨wm, hwm, hwmseq⟩ := List.mem_map.mp hmem
  have := hinv.producer_bound wm hwm
  omega

theorem C1_cursor_invariant_witness :
    ((0 : ℕ) ≤ (⟨2, 0, 0, none, .outer_top, [[5, 6]], 2, 0⟩ : Worker ℕ).seqnum ∧
      (⟨2, 0, 0, none, .outer_top, [[5, 6]], 2, 0⟩ : Worker ℕ).seqnum ≤
        tr10.producer_seqnum) ∧
    tr10.producer_seqnum -
      (⟨2, 0, 0, none, .outer_top, [[5, 6]], 2, 0⟩ : Worker ℕ).seqnum ≤
        tr10.ring_buffer.size ∧
    tr10.producer_seqnum - 2 ≤ tr10.ring_buffer.size := by
  have h := C1_cursor_invariant rch10 ⟨2, 0, 0, none, .outer_top, [[5, 6]], 2, 0⟩
    (by decide)
  exact ⟨h.1, h.2.1, h.2.2 2 rfl⟩

/-- C2: In every reachable state, each consumer's observed stream (the
concatenation of the batches passed to its `consume` calls, in call
order) is a gap-free, order-preserving prefix of the publication
history from its registration point on (`produced_log` records the
elements written by `produce` rounds in lock-acquisition order).  For a
consumer registered before any publication (`start_seqnum = 0`) it is a
prefix of the whole publication history. -/
theorem C2_observed_stream_prefix {ε : Type} {size : ℕ} {sentinel : ε} {ehs : Bool}
    {s : DState ε} (h : Reachable ε size sentinel ehs s) :
    ∀ w ∈ s.consumers,
      List.IsPrefix (Worker.obs w) (s.produced_log.drop w.start_seqnum) ∧
      (w.start_seqnum = 0 → List.IsPrefix (Worker.obs w) s.produced_log) := by
  intro w hw
  have hinv := reachable_inv h
  obtain ⟨b, _, hobs⟩ := workerCore_obs (hinv.worker_inv w hw)
  constructor
  · rw [hobs]
    exact logSlice_isPre s.produced_log w.start_seqnum b
  · intro h0
    rw [hobs, h0]
    have := logSlice_isPre s.produced_log 0 b
    rwa [List.drop_zero] at this

theorem C2_observed_stream_prefix_witness :
    List.IsPrefix
      (Worker.obs (⟨2, 0, 1, some [7], .done, [[5, 6], [7]], 3, 1⟩ : Worker ℕ))
      (tr18.produced_log.drop
        (⟨2, 0, 1, some [7], .done, [[5, 6], [7]], 3, 1⟩ : Worker ℕ).start_seqnum) ∧
    List.IsPrefix
      (Worker.obs (⟨2, 0, 1, some [7], .done, [[5, 6], [7]], 3, 1⟩ : Worker ℕ))
      tr18.produced_log := by
  have h := C2_observed_stream_prefix rch18
    ⟨2, 0, 1, some [7], .done, [[5, 6], [7]], 3, 1⟩ (by decide)
  exact ⟨h.1, h.2 rfl⟩

/-- C3: `produce` proceeds in rounds.  A writing round computes
`free = capacity − P + min(Ci)` (positive), writes
`n = min(free, |batch| − produced)` elements of the batch, in order,
into ring slots `(P + k) mod capacity`, advances the producer cursor by
`n` and signals production; a batch longer than the capacity is thereby
produced in several rounds without dropping elements.  When the loop
exits, the call has produced exactly `|batch|` elements and
`report_p_produced` adds `|batch|` to `produced_count`; any finished
call has `produced = |batch|`. -/
theorem C3_produce_rounds {ε : Type} {size : ℕ} {sentinel : ε} {ehs : Bool}
    {s s' : DState ε} {j : ℕ} {p : Producer ε}
    (hreach : Reachable ε size sentinel ehs s) :
    (Step ε s (Label.produce_round_write j) s' → s.producers[j]? = some p →
      ∃ m, minConsumerSeq s = some m ∧
        s.producer_seqnum < s.ring_buffer.size + m ∧
        toProduceCnt s m p =
          min (s.ring_buffer.size + m - s.producer_seqnum)
            (p.elements.length - p.produced) ∧
        0 < toProduceCnt s m p ∧
        roundSlice s m p = pySlice p.elements p.produced (toProduceCnt s m p) ∧
        s'.producer_seqnum = s.producer_seqnum + toProduceCnt s m p ∧
        s'.produced_log = s.produced_log ++ roundSlice s m p ∧
        s'.producers[j]? = some { p with produced := p.produced + toProduceCnt s m p } ∧
        (∀ k, k < toProduceCnt s m p →
          s'.ring_buffer.buffer[(s.producer_seqnum + k) % s.ring_buffer.size]? =
            p.elements[p.produced + k]?)) ∧
    (Step ε s (Label.produce_finish j) s' → s.producers[j]? = some p →
      p.produced = p.elements.length ∧
      s'.stats_produced = s.stats_produced + p.elements.length) ∧
    (s.producers[j]? = some p → p.pc = PPC.done → p.produced = p.elements.length) := by
  have hinv := reachable_inv hreach
  refine ⟨?_, ?_, ?_⟩
  · intro hst hp
    cases hst with
    | produce_round_write j0 p0 m hp0 hpc0 hlt0 hmin0 hfree0 =>
      obtain rfl : p = p0 := Option.some.inj (hp.symm.trans hp0)
      obtain ⟨hmmem, _⟩ := min?_spec hmin0
      obtain ⟨wm, hwm, hwmseq⟩ := List.mem_map.mp hmmem
      have hmP : m ≤ s.producer_seqnum := by
        have := (hinv.worker_inv wm hwm).1
        omega
      have hple := (hinv.producer_inv p (mem_of_get? hp)).1
      have hnpos : 0 < toProduceCnt s m p := by
        simp only [toProduceCnt]
        omega
      have hnfit : toProduceCnt s m p ≤ s.ring_buffer.size := by
        simp only [toProduceCnt]
        omega
      have hslen : (roundSlice s m p).length = toProduceCnt s m p :=
        roundSlice_length s m p hple
      refine ⟨m, hmin0, hfree0, rfl, hnpos, rfl, rfl, rfl, ?_, ?_⟩
      · show (s.producers.set j { p with produced := p.produced + toProduceCnt s m p })[j]?
          = some { p with produced := p.produced + toProduceCnt s m p }
        exact List.getElem?_set_self (List.getElem?_eq_some.mp hp).1
      · intro k hk
        have h0 : 0 < s.ring_buffer.size := by omega
        have hw := mset_get_written s.ring_buffer s.producer_seqnum (roundSlice s m p) k
          hinv.ring_len h0 (by omega) (by omega)
        rw [hw]
        exact pySlice_get p.elements p.produced (toProduceCnt s m p) k hk
  · intro hst hp
    cases hst with
    | produce_finish j0 p0 hp0 hpc0 hge0 =>
      obtain rfl : p = p0 := Option.some.inj (hp.symm.trans hp0)
      have hple := (hinv.producer_inv p (mem_of_get? hp)).1
      have heq : p.produced = p.elements.length := by omega
      exact ⟨heq, by show s.stats_produced + p.produced = _; rw [heq]⟩
  · intro hp hpc
    exact (hinv.producer_inv p (mem_of_get? hp)).2.1 hpc

theorem C3_produce_rounds_witness :
    ∃ m, minConsumerSeq tr9 = some m ∧
      tr9.producer_seqnum < tr9.ring_buffer.size + m ∧
      toProduceCnt tr9 m ⟨[5, 6, 7], 2, .loop_check⟩ =
        min (tr9.ring_buffer.size + m - tr9.producer_seqnum)
          ((⟨[5, 6, 7], 2, .loop_check⟩ : Producer ℕ).elements.length -
            (⟨[5, 6, 7], 2, .loop_check⟩ : Producer ℕ).produced) ∧
      0 < toProduceCnt tr9 m ⟨[5, 6, 7], 2, .loop_check⟩ ∧
      roundSlice tr9 m ⟨[5, 6, 7], 2, .loop_check⟩ =
        pySlice [5, 6, 7] 2 (toProduceCnt tr9 m ⟨[5, 6, 7], 2, .loop_check⟩) ∧
      tr10.producer_seqnum =
        tr9.producer_seqnum + toProduceCnt tr9 m ⟨[5, 6, 7], 2, .loop_check⟩ ∧
      tr10.produced_log =
        tr9.produced_log ++ roundSlice tr9 m ⟨[5, 6, 7], 2, .loop_check⟩ ∧
      tr10.producers[0]? = some ⟨[5, 6, 7],
        2 + toProduceCnt tr9 m ⟨[5, 6, 7], 2, .loop_check⟩, .loop_check⟩ ∧
      (∀ k, k < toProduceCnt tr9 m ⟨[5, 6, 7], 2, .loop_check⟩ →
        tr10.ring_buffer.buffer[(tr9.producer_seqnum + k) % tr9.ring_buffer.size]? =
          ([5, 6, 7] : List ℕ)[2 + k]?) :=
  (C3_produce_rounds rch9).1 str910 rfl

/-- C4: After a `close()` call has returned: every worker has finished
its final drain (of the `P − Ci` elements remaining at the drain lock),
so every element published before the stop (`stop_seqnum`) and after the
consumer's registration has been delivered to it; each consumer's
`close()` hook ran exactly once; `end_time` is recorded; the running
flag is off, flipped exactly once (no step can turn it back on), and a
second `close()`'s lock section is a no-op that just lets the call
proceed.  (The tail of `Disruptor.close` after the lock section is
modelled from the spec, the source file being truncated there.) -/
theorem C4_close_drains_and_is_idempotent {ε : Type} {size : ℕ} {sentinel : ε}
    {ehs : Bool} {s : DState ε} (h : Reachable ε size sentinel ehs s)
    (hdone : CPC.done ∈ s.closers) :
    (∀ w ∈ s.consumers, w.pc = WPC.done ∧ w.closed_calls = 1 ∧
      ∀ q, s.stop_seqnum = some q →
        List.IsPrefix (logSlice s.produced_log w.start_seqnum q) (Worker.obs w)) ∧
    s.end_time_set = true ∧
    s.running = false ∧
    (∃ q, s.stop_seqnum = some q) ∧
    (∀ lab s₂, Step ε s lab s₂ → s₂.running = false) ∧
    (∀ k, s.closers[k]? = some CPC.entry →
      Step ε s (Label.close_lock k) { s with closers := s.closers.set k CPC.awaiting }) := by
  have hinv := reachable_inv h
  have hrun : s.running = false := hinv.close_run CPC.done hdone (by decide)
  obtain ⟨hall, hend⟩ := hinv.close_done hdone
  refine ⟨?_, hend, hrun, ?_, ?_, ?_⟩
  · intro w hw
    have hpcw := hall w hw
    obtain ⟨h1, h2, h3, h4, h5⟩ := hinv.worker_inv w hw
    refine ⟨hpcw, by rw [h4, hpcw]; simp, ?_⟩
    intro q hq
    rcases w with ⟨seq, st, avail, toc, pc, ob, cons, cc⟩
    simp only at hpcw
    subst hpcw
    obtain ⟨hle, hobs, hqle⟩ := h5
    simp only at hle hobs
    rw [show Worker.obs ⟨seq, st, avail, toc, WPC.done, ob, cons, cc⟩ = ob.flatten from rfl]
      at hobs ⊢
    rw [hobs]
    exact logSlice_mono s.produced_log st q (seq + avail) (hqle q hq)
  · rcases hstop : s.stop_seqnum with _ | q
    · rw [hinv.stop_run.mp hstop] at hrun
      cases hrun
    · exact ⟨q, rfl⟩
  · intro lab s₂ hst
    exact step_running_mono hst hrun
  · intro k hk
    exact Step.close_lock_skip s k hk hrun

theorem C4_close_drains_and_is_idempotent_witness :
    (∀ w ∈ tr18.consumers, w.pc = WPC.done ∧ w.closed_calls = 1 ∧
      ∀ q, tr18.stop_seqnum = some q →
        List.IsPrefix (logSlice tr18.produced_log w.start_seqnum q) (Worker.obs w)) ∧
    tr18.end_time_set = true ∧
    tr18.running = false ∧
    (∃ q, tr18.stop_seqnum = some q) ∧
    (∀ lab s₂, Step ℕ tr18 lab s₂ → s₂.running = false) ∧
    (∀ k, tr18.closers[k]? = some CPC.entry →
      Step ℕ tr18 (Label.close_lock k)
        { tr18 with closers := tr18.closers.set k CPC.awaiting }) :=
  C4_close_drains_and_is_idempotent rch18 (by decide)

/-- C5: `produce(batch)` fails with `Stopped` exactly when it is invoked
while the disruptor is not running, and the failure is immediate and
atomic: the call step only records the failed call, leaving the ring,
the producer cursor, the stats counters and everything else unchanged.
No later step ever turns an in-flight call into the `Stopped` failure. -/
theorem C5_stopped_iff_not_running {ε : Type} {s s' : DState ε} :
    (∀ batch : List ε, Step ε s (Label.produce_call batch) s' →
      s' = { s with producers := s.producers ++
          [⟨batch, 0, if s.running then PPC.loop_check else PPC.stopped_err⟩] } ∧
      (s.running = false ↔
        s'.producers[s.producers.length]? = some ⟨batch, 0, PPC.stopped_err⟩) ∧
      s'.ring_buffer = s.ring_buffer ∧ s'.producer_seqnum = s.producer_seqnum ∧
      s'.stats_produced = s.stats_produced ∧ s'.produced_log = s.produced_log ∧
      s'.consumers = s.consumers ∧ s'.running = s.running) ∧
    (∀ (lab : Label ε) (j : ℕ) (p p' : Producer ε), Step ε s lab s' → s.producers[j]? = some p →
      s'.producers[j]? = some p' → p.pc ≠ PPC.stopped_err → p'.pc ≠ PPC.stopped_err) := by
  constructor
  · intro batch hst
    cases hst with
    | produce_call batch =>
      refine ⟨rfl, ?_, rfl, rfl, rfl, rfl, rfl, rfl⟩
      constructor
      · intro hr
        rw [show (s.producers ++
            [(⟨batch, 0, if s.running then PPC.loop_check else PPC.stopped_err⟩ :
              Producer ε)])[s.producers.length]? =
            some ⟨batch, 0, if s.running then PPC.loop_check else PPC.stopped_err⟩
          from List.getElem?_concat_length _ _, hr]
        simp
      · intro hsome
        rw [List.getElem?_concat_length] at hsome
        have := Option.some.inj hsome
        by_cases hr : s.running = true
        · rw [hr] at this
          simp at this
        · simp only [Bool.not_eq_true] at hr
          exact hr
  · intro lab j p p' hst hp hp' hne
    exact step_no_new_stopped hst hp hp' hne

theorem C5_stopped_iff_not_running_witness :
    tr13f = { tr13 with producers := tr13.producers ++
        [⟨[9], 0, if tr13.running then PPC.loop_check else PPC.stopped_err⟩] } ∧
    (tr13.running = false ↔
      tr13f.producers[tr13.producers.length]? = some ⟨[9], 0, PPC.stopped_err⟩) ∧
    tr13f.ring_buffer = tr13.ring_buffer ∧
    tr13f.producer_seqnum = tr13.producer_seqnum ∧
    tr13f.stats_produced = tr13.stats_produced ∧
    tr13f.produced_log = tr13.produced_log ∧
    tr13f.consumers = tr13.consumers ∧ tr13f.running = tr13.running :=
  (C5_stopped_iff_not_running).1 [9] (Step.produce_call tr13 [9])

/-! ## C6: produce with no consumers -/

theorem cx1_reachable : Reachable ℕ 4 0 false cx1 :=
  Reachable.step Reachable.init (Step.produce_call cx0 [7])

/-- C6 (counterexample): the claim says that with no consumers
registered the free-slot computation falls back to `min(Ci) := P` and a
batch no longer than the capacity is written immediately.  In the code
(`disruptor.py` line 481-482) `min(...)` is applied to the empty
sequence with no default, so the round raises `ValueError` instead: from
the concrete state `cx1` (running, capacity 4, no consumers, pending
`produce([7])`) the only round step ends in `value_err`, and no step at
all from `cx1` writes anything into the ring or the log. -/
theorem C6_counterexample :
    Reachable ℕ 4 0 false cx1 ∧
    cx1.running = true ∧ cx1.consumers = [] ∧
    (cx1.producers[0]? = some ⟨[7], 0, PPC.loop_check⟩ ∧
      (0 : ℕ) < ([7] : List ℕ).length) ∧
    Step ℕ cx1 (Label.produce_round_empty_min 0) cx2 ∧
    cx2.producers[0]? = some ⟨[7], 0, PPC.value_err⟩ ∧
    cx2.produced_log = [] ∧ cx2.ring_buffer = cx1.ring_buffer ∧
    (∀ (lab : Label ℕ) (s' : DState ℕ), Step ℕ cx1 lab s' → s'.produced_log = []) := by
  refine ⟨cx1_reachable, rfl, rfl, ⟨rfl, by decide⟩, ?_, rfl, rfl, rfl, ?_⟩
  · exact Step.produce_round_empty_min cx1 0 ⟨[7], 0, .loop_check⟩ rfl rfl (by decide) rfl
  · intro lab s' hst
    cases hst with
    | produce_call elements => rfl
    | produce_round_empty_min j p hp hpc hlt hcons => rfl
    | produce_round_wait j p m hp hpc hlt hmin hfull => rfl
    | produce_round_write j p m hp hpc hlt hmin hfree =>
      exact Option.noConfusion (show (none : Option ℕ) = some m from hmin)
    | produce_finish j p hp hpc hge => rfl
    | produce_wake j p hp hpc => rfl
    | register_consumer hrun => rfl
    | w_outer i w hw hpc =>
      exact Option.noConfusion (show (none : Option (Worker ℕ)) = some w from hw)
    | w_inner_check i w hw hpc =>
      exact Option.noConfusion (show (none : Option (Worker ℕ)) = some w from hw)
    | w_inner_lock i w hw hpc =>
      exact Option.noConfusion (show (none : Option (Worker ℕ)) = some w from hw)
    | w_wake i w hw hpc =>
      exact Option.noConfusion (show (none : Option (Worker ℕ)) = some w from hw)
    | w_consume_batch i w l fail hw hpc hto hne =>
      exact Option.noConfusion (show (none : Option (Worker ℕ)) = some w from hw)
    | w_consume_skip i w fail hw hpc hto =>
      exact Option.noConfusion (show (none : Option (Worker ℕ)) = some w from hw)
    | w_update i w hw hpc =>
      exact Option.noConfusion (show (none : Option (Worker ℕ)) = some w from hw)
    | w_drain_lock i w hw hpc =>
      exact Option.noConfusion (show (none : Option (Worker ℕ)) = some w from hw)
    | w_drain_consume_batch i w l fail hw hpc hto hne =>
      exact Option.noConfusion (show (none : Option (Worker ℕ)) = some w from hw)
    | w_drain_consume_skip i w fail hw hpc hto =>
      exact Option.noConfusion (show (none : Option (Worker ℕ)) = some w from hw)
    | w_close_hook i w hw hpc =>
      exact Option.noConfusion (show (none : Option (Worker ℕ)) = some w from hw)
    | close_call => rfl
    | close_lock_stop k hk hrun =>
      exact Option.noConfusion (show (none : Option CPC) = some CPC.entry from hk)
    | close_lock_skip k hk hrun =>
      exact Option.noConfusion (show (none : Option CPC) = some CPC.entry from hk)
    | close_finish k hk hall =>
      exact Option.noConfusion (show (none : Option CPC) = some CPC.awaiting from hk)

/-- C6 (amended): if `produce(batch)` reaches a round on a disruptor
with no consumers registered and elements still to write, the lock
section's `min()` over the empty consumer roster is undefined
(`minConsumerSeq = none`, Python raises `ValueError`): the round aborts
the call with `value_err`, leaving everything but the failed call's
program counter unchanged, and no writing or waiting round exists.  The
code does not fall back to `min(Ci) := P`. -/
theorem C6_empty_roster_raises {ε : Type} {s : DState ε} {j : ℕ} {p : Producer ε}
    (hp : s.producers[j]? = some p) (hpc : p.pc = PPC.loop_check)
    (hlt : p.produced < p.elements.length) (hcons : s.consumers = []) :
    minConsumerSeq s = none ∧
    Step ε s (Label.produce_round_empty_min j)
      { s with producers := s.producers.set j { p with pc := PPC.value_err } } ∧
    (∀ s', ¬ Step ε s (Label.produce_round_write j) s') ∧
    (∀ s', ¬ Step ε s (Label.produce_round_wait j) s') := by
  have hnone : minConsumerSeq s = none := by
    simp [minConsumerSeq, hcons, List.min?]
  refine ⟨hnone, Step.produce_round_empty_min s j p hp hpc hlt hcons, ?_, ?_⟩
  · intro s' hst
    cases hst with
    | produce_round_write j0 p0 m hp0 hpc0 hlt0 hmin0 hfree0 =>
      rw [hnone] at hmin0
      exact Option.noConfusion hmin0
  · intro s' hst
    cases hst with
    | produce_round_wait j0 p0 m hp0 hpc0 hlt0 hmin0 hfull0 =>
      rw [hnone] at hmin0
      exact Option.noConfusion hmin0

theorem C6_empty_roster_raises_witness :
    minConsumerSeq cx1 = none ∧
    Step ℕ cx1 (Label.produce_round_empty_min 0)
      { cx1 with producers := cx1.producers.set 0 ⟨[7], 0, PPC.value_err⟩ } ∧
    (∀ s', ¬ Step ℕ cx1 (Label.produce_round_write 0) s') ∧
    (∀ s', ¬ Step ℕ cx1 (Label.produce_round_wait 0) s') :=
  @C6_empty_roster_raises ℕ cx1 0 ⟨[7], 0, .loop_check⟩ rfl rfl (by decide) rfl

/-- C7: when a consumer's `consume(batch)` raises (the `fail = true`
outcome of the callback): the error handler is invoked exactly once with
the consumer and the batch when one was supplied, and the error is
swallowed otherwise; the worker is not aborted (it proceeds to the
cursor-update lock section), the batch equals the fetched
`available_count` elements, `consumed_count` grows by `|batch|`, and the
following lock section advances the cursor `Ci` by `|batch|` and
re-enters the main loop, so subsequent batches are delivered normally
(at-most-once attempted delivery). -/
theorem C7_consumer_error_policy {ε : Type} {size : ℕ} {sentinel : ε} {ehs : Bool}
    {s s' : DState ε} {i : ℕ} {w : Worker ε} {l : List ε}
    (hreach : Reachable ε size sentinel ehs s)
    (hw : s.consumers[i]? = some w) (hto : w.to_consume = some l) (hne : l ≠ [])
    (hst : Step ε s (Label.w_consume i true) s') :
    s' = { s with
        consumers := s.consumers.set i
          { w with observed := w.observed ++ [l], consumed := w.consumed + l.length,
                   pc := WPC.update_lock },
        error_handler_log := if s.error_handler_set then s.error_handler_log ++ [(i, l)]
          else s.error_handler_log } ∧
    l.length = w.available_count ∧
    (s.error_handler_set = true →
      s'.error_handler_log = s.error_handler_log ++ [(i, l)]) ∧
    (s.error_handler_set = false → s'.error_handler_log = s.error_handler_log) ∧
    (∀ s₂, Step ε s' (Label.w_update i) s₂ →
      s₂.consumers[i]? = some
        { w with observed := w.observed ++ [l], consumed := w.consumed + l.length,
                 seqnum := w.seqnum + w.available_count, available_count := 0,
                 to_consume := none, pc := WPC.outer_top }) := by
  have hilt : i < s.consumers.length := (List.getElem?_eq_some.mp hw).1
  cases hst with
  | w_consume_batch i w0 l0 fail hw0 hpc0 hto0 hne0 =>
    obtain rfl : w = w0 := Option.some.inj (hw.symm.trans hw0)
    obtain rfl : l = l0 := Option.some.inj (hto.symm.trans hto0)
    have hlen : l.length = w.available_count := by
      have hinv := reachable_inv hreach
      obtain ⟨h1, h2, h3, h4, h5⟩ := hinv.worker_inv w (mem_of_get? hw)
      rcases w with ⟨seq, st, avail, toc, pc, ob, cons, cc⟩
      simp only at hpc0 hto
      subst hpc0
      rcases h5 with ⟨havail, htoc, hobs⟩ | ⟨hapos, hle, htoc, hobs⟩
      · simp only at htoc
        rw [htoc] at hto
        exact Option.noConfusion hto
      · simp only at hle htoc ⊢
        rw [htoc] at hto
        have hl : logSlice s.produced_log seq (seq + avail) = l := Option.some.inj hto
        rw [← hl, logSlice_length _ _ _ (by rw [hinv.log_len]; exact hle)]
        omega
    refine ⟨?_, hlen, ?_, ?_, ?_⟩
    · simp [Bool.true_and]
    · intro hset
      show (if true && s.error_handler_set then s.error_handler_log ++ [(i, l)]
        else s.error_handler_log) = s.error_handler_log ++ [(i, l)]
      rw [hset]
      rfl
    · intro hset
      show (if true && s.error_handler_set then s.error_handler_log ++ [(i, l)]
        else s.error_handler_log) = s.error_handler_log
      rw [hset]
      rfl
    · intro s₂ hst₂
      cases hst₂ with
      | w_update i w1 hw1 hpc1 =>
        have hw1' : (s.consumers.set i
            { w with observed := w.observed ++ [l], consumed := w.consumed + l.length,
                     pc := WPC.update_lock })[i]? =
            some { w with observed := w.observed ++ [l],
                          consumed := w.consumed + l.length, pc := WPC.update_lock } :=
          List.getElem?_set_self hilt
        obtain rfl := Option.some.inj (hw1.symm.trans hw1')
        rw [List.getElem?_set_self (by rw [List.length_set]; exact hilt)]
  | w_consume_skip i w0 fail hw0 hpc0 hto0 =>
    obtain rfl : w = w0 := Option.some.inj (hw.symm.trans hw0)
    rcases hto0 with hto0 | hto0
    · rw [hto0] at hto
      exact Option.noConfusion hto
    · rw [hto0] at hto
      exact absurd (Option.some.inj hto).symm hne

theorem C7_consumer_error_policy_witness :
    tr8 = { tr7 with
        consumers := tr7.consumers.set 0
          { (⟨0, 0, 2, some [5, 6], .consuming, [], 0, 0⟩ : Worker ℕ) with
              observed := [] ++ [[5, 6]], consumed := 0 + ([5, 6] : List ℕ).length,
              pc := WPC.update_lock },
        error_handler_log := if tr7.error_handler_set then
          tr7.error_handler_log ++ [(0, [5, 6])] else tr7.error_handler_log } ∧
    ([5, 6] : List ℕ).length =
      (⟨0, 0, 2, some [5, 6], .consuming, [], 0, 0⟩ : Worker ℕ).available_count ∧
    (tr7.error_handler_set = true →
      tr8.error_handler_log = tr7.error_handler_log ++ [(0, [5, 6])]) ∧
    (tr7.error_handler_set = false → tr8.error_handler_log = tr7.error_handler_log) ∧
    (∀ s₂, Step ℕ tr8 (Label.w_update 0) s₂ →
      s₂.consumers[0]? = some ⟨0 + 2, 0, 0, none, WPC.outer_top, [] ++ [[5, 6]],
        0 + ([5, 6] : List ℕ).length, 0⟩) :=
  C7_consumer_error_policy rch7 rfl rfl (by decide) str78

/-- C8: RingBuffer read and round-trip correctness.  For a buffer whose
slot list has its declared positive size and any `n ≤ size`,
`mget(start, n)` returns exactly the `n` slots at indices
`(start + k) mod size`, wrapping across the end of the slot array; and
for any `elems` with `len(elems) ≤ size`, after `mset(start, elems)` a
`mget(start, len(elems))` returns `elems` in order while the slot array
keeps length `size`. -/
theorem C8_ringbuffer_roundtrip {ε : Type} (rb : RingBuffer ε) (start n : ℕ)
    (hb : rb.buffer.length = rb.size) (h0 : 0 < rb.size) (hn : n ≤ rb.size) :
    ((rb.mget start n).length = n ∧
      ∀ k, k < n → (rb.mget start n)[k]? = rb.buffer[(start + k) % rb.size]?) ∧
    (∀ elems : List ε, elems.length ≤ rb.size →
      (rb.mset start elems).mget start elems.length = elems ∧
      (rb.mset start elems).buffer.length = rb.size) := by
  refine ⟨⟨mget_length rb start n hb h0 hn,
    fun k hk => mget_get rb start n k hb h0 hn hk⟩, ?_⟩
  intro elems hL
  exact ⟨mset_mget_roundtrip rb start elems hb h0 hL,
    by rw [mset_buffer_length rb start elems hb h0 hL, hb]⟩

theorem C8_ringbuffer_roundtrip_witness :
    (((RingBuffer.mk ([0, 0, 0, 0, 0] : List ℕ) 5).mget 3 4).length = 4 ∧
      ∀ k, k < 4 → ((RingBuffer.mk ([0, 0, 0, 0, 0] : List ℕ) 5).mget 3 4)[k]? =
        (RingBuffer.mk ([0, 0, 0, 0, 0] : List ℕ) 5).buffer[(3 + k) % 5]?) ∧
    (∀ elems : List ℕ, elems.length ≤ 5 →
      ((RingBuffer.mk ([0, 0, 0, 0, 0] : List ℕ) 5).mset 3 elems).mget 3 elems.length
        = elems ∧
      ((RingBuffer.mk ([0, 0, 0, 0, 0] : List ℕ) 5).mset 3 elems).buffer.length = 5) :=
  C8_ringbuffer_roundtrip (RingBuffer.mk [0, 0, 0, 0, 0] 5) 3 4
    (by decide) (by decide) (by decide)

/-- C9: starting from a freshly constructed `RingBufferLagStats`, after
samples `v1, ..., vk` (`k ≥ 1`, all non-negative), `cur_lag` is the last
sample, `n_samples` is `k`, `max_lag` is the maximum of the samples, and
`avg_lag` is their arithmetic mean, each call performing
`avg ← (avg·n + v)/(n+1)` and then `n ← n+1` over exact rational
arithmetic. -/
theorem C9_lag_statistics (vs : List ℚ) (hne : vs ≠ []) (hpos : ∀ v ∈ vs, 0 ≤ v) :
    (vs.foldl RingBufferLagStats.sample RingBufferLagStats.create).cur_lag
      = vs.getLast hne ∧
    (vs.foldl RingBufferLagStats.sample RingBufferLagStats.create).n_samples
      = vs.length ∧
    ((vs.foldl RingBufferLagStats.sample RingBufferLagStats.create).max_lag ∈ vs ∧
      ∀ v ∈ vs,
        v ≤ (vs.foldl RingBufferLagStats.sample RingBufferLagStats.create).max_lag) ∧
    (vs.foldl RingBufferLagStats.sample RingBufferLagStats.create).avg_lag
      = vs.sum / (vs.length : ℚ) := by
  have hn := lag_fold_n vs RingBufferLagStats.create
  have hcur := lag_fold_cur vs RingBufferLagStats.create
  have havg := lag_fold_avg vs RingBufferLagStats.create
  have hmax0 : (vs.foldl RingBufferLagStats.sample RingBufferLagStats.create).max_lag
      = vs.foldl max 0 := lag_fold_max vs RingBufferLagStats.create
  obtain ⟨hmem, hle0, hall⟩ := foldl_max_spec vs 0
  refine ⟨?_, ?_, ⟨?_, ?_⟩, ?_⟩
  · rw [hcur, List.getLast?_eq_getLast vs hne]
    rfl
  · rw [hn]
    simp [RingBufferLagStats.create]
  · rw [hmax0]
    rcases hmem with hmem | hmem
    · rcases vs with _ | ⟨v, t⟩
      · exact absurd rfl hne
      · have hv0 : (0 : ℚ) ≤ v := hpos v (List.mem_cons_self v t)
        have hvle : v ≤ (v :: t).foldl max 0 := hall v (List.mem_cons_self v t)
        rw [hmem] at hvle
        rw [hmem, ← le_antisymm hvle hv0]
        exact List.mem_cons_self v t
    · exact hmem
  · intro v hv
    rw [hmax0]
    exact hall v hv
  · have hlen0 : vs.length ≠ 0 := by
      rcases vs with _ | ⟨v, t⟩
      · exact absurd rfl hne
      · simp
    have hnne : ((vs.length : ℚ)) ≠ 0 := by exact_mod_cast hlen0
    rw [eq_div_iff hnne]
    have h1 : ((vs.foldl RingBufferLagStats.sample
        RingBufferLagStats.create).n_samples : ℚ) = (vs.length : ℚ) := by
      rw [hn]
      push_cast [RingBufferLagStats.create]
      ring
    rw [← h1, havg]
    simp [RingBufferLagStats.create]

theorem C9_lag_statistics_witness :
    (([4, 2] : List ℚ).foldl RingBufferLagStats.sample
        RingBufferLagStats.create).cur_lag = ([4, 2] : List ℚ).getLast (by decide) ∧
    (([4, 2] : List ℚ).foldl RingBufferLagStats.sample
        RingBufferLagStats.create).n_samples = ([4, 2] : List ℚ).length ∧
    ((([4, 2] : List ℚ).foldl RingBufferLagStats.sample
        RingBufferLagStats.create).max_lag ∈ ([4, 2] : List ℚ) ∧
      ∀ v ∈ ([4, 2] : List ℚ),
        v ≤ (([4, 2] : List ℚ).foldl RingBufferLagStats.sample
          RingBufferLagStats.create).max_lag) ∧
    (([4, 2] : List ℚ).foldl RingBufferLagStats.sample
        RingBufferLagStats.create).avg_lag =
      ([4, 2] : List ℚ).sum / ((([4, 2] : List ℚ).length : ℕ) : ℚ) :=
  C9_lag_statistics [4, 2] (by decide) (by norm_num)

/-- C10: the `running` check in `produce` happens only at entry.  A call
that passed its entry check never fails with `Stopped` afterwards:
(i) no step turns a call at `loop_check` or `wait_cons` into
`stopped_err`; (ii) the round, wake and finish steps are enabled
regardless of the running flag, so a mid-way call keeps producing after
`close()` flips the flag; (iii) whenever a call returns (`done`), it has
produced exactly its whole batch. -/
theorem C10_entry_check_only {ε : Type} {size : ℕ} {sentinel : ε} {ehs : Bool}
    {s s' : DState ε} (hreach : Reachable ε size sentinel ehs s) :
    (∀ (lab : Label ε) (j : ℕ) (p p' : Producer ε), Step ε s lab s' →
      s.producers[j]? = some p → s'.producers[j]? = some p' →
      (p.pc = PPC.loop_check ∨ p.pc = PPC.wait_cons) → p'.pc ≠ PPC.stopped_err) ∧
    (∀ (j : ℕ) (b : Bool), Step ε s (Label.produce_round_write j) s' →
      Step ε { s with running := b } (Label.produce_round_write j)
        { s' with running := b }) ∧
    (∀ (j : ℕ) (b : Bool), Step ε s (Label.produce_wake j) s' →
      Step ε { s with running := b } (Label.produce_wake j) { s' with running := b }) ∧
    (∀ (j : ℕ) (b : Bool), Step ε s (Label.produce_finish j) s' →
      Step ε { s with running := b } (Label.produce_finish j)
        { s' with running := b }) ∧
    (∀ (j : ℕ) (p : Producer ε), s.producers[j]? = some p → p.pc = PPC.done →
      p.produced = p.elements.length) := by
  refine ⟨?_, ?_, ?_, ?_, ?_⟩
  · intro lab j p p' hst hp hp' hpc
    refine step_no_new_stopped hst hp hp' ?_
    rcases hpc with hpc | hpc <;> rw [hpc] <;> decide
  · intro j b hst
    cases hst
    rename_i p m hpc hlt hmin hfree hp
    exact Step.produce_round_write { s with running := b } j p m hp hpc hlt hmin hfree
  · intro j b hst
    cases hst
    rename_i p hpc hp
    exact Step.produce_wake { s with running := b } j p hp hpc
  · intro j b hst
    cases hst
    rename_i p hpc hge hp
    exact Step.produce_finish { s with running := b } j p hp hpc hge
  · intro j p hp hpc
    exact ((reachable_inv hreach).producer_inv p (mem_of_get? hp)).2.1 hpc

theorem C10_entry_check_only_witness :
    (∀ (lab : Label ℕ) (j : ℕ) (p p' : Producer ℕ), Step ℕ tr9 lab tr10 →
      tr9.producers[j]? = some p → tr10.producers[j]? = some p' →
      (p.pc = PPC.loop_check ∨ p.pc = PPC.wait_cons) → p'.pc ≠ PPC.stopped_err) ∧
    (∀ (j : ℕ) (b : Bool), Step ℕ tr9 (Label.produce_round_write j) tr10 →
      Step ℕ { tr9 with running := b } (Label.produce_round_write j)
        { tr10 with running := b }) ∧
    (∀ (j : ℕ) (b : Bool), Step ℕ tr9 (Label.produce_wake j) tr10 →
      Step ℕ { tr9 with running := b } (Label.produce_wake j)
        { tr10 with running := b }) ∧
    (∀ (j : ℕ) (b : Bool), Step ℕ tr9 (Label.produce_finish j) tr10 →
      Step ℕ { tr9 with running := b } (Label.produce_finish j)
        { tr10 with running := b }) ∧
    (∀ (j : ℕ) (p : Producer ℕ), tr9.producers[j]? = some p → p.pc = PPC.done →
      p.produced = p.elements.length) :=
  C10_entry_check_only rch9

end AsyncioDisruptor
